import Mathlib

/-!
Verification development for the assemblyline-core dispatcher.

This file gives a shallow embedding of `al_core/dispatching/dispatcher.py`
and `al_core/dispatching/scheduler.py` and proves/refutes the frozen claims
about them.  External collaborators (the redis dispatch hash, datastore,
queues, regex engine, classification lattice) are modelled as explicit data:
the dispatch hash as association lists (its operations are modelled from the
spec, since `dispatch_hash.py` is not part of the sources), datastore lookups
as functions into `Option`, `re.match` as an abstract boolean predicate, and
the classification lattice as `Nat` with `max` as join.  Wall-clock time is
an `Int` parameter.  Python `while` loops whose termination is not structural
are given explicit fuel; a `none` result of a fallible embedded function
corresponds to a Python exception (missing catalog entry, `list.index`
failure, unbounded recursion).
-/

/-- Association list lookup: the first binding of the key, like a Python
dict read. -/
def alistGet {κ α : Type} [DecidableEq κ] (l : List (κ × α)) (k : κ) : Option α :=
  (l.find? (fun p => p.1 = k)).map (·.2)

/-- Association list write with Python dict semantics: an existing key keeps
its position and gets the new value, a new key is appended at the end. -/
def alistPut {κ α : Type} [DecidableEq κ] (l : List (κ × α)) (k : κ) (v : α) :
    List (κ × α) :=
  match l with
  | [] => [(k, v)]
  | (k', v') :: rest =>
    if k' = k then (k, v) :: rest else (k', v') :: alistPut rest k v

/-- Insert into a membership list only when absent (Python `set.add`,
modelled with a deterministic order). -/
def setInsert (l : List String) (s : String) : List String :=
  if s ∈ l then l else l ++ [s]

/-- Pop the LAST element of a list, like Python `list.pop()`.  Returns the
remaining prefix and the popped element. -/
def popLast {α : Type} : List α → Option (List α × α)
  | [] => none
  | a :: rest =>
    match popLast rest with
    | none => some ([], a)
    | some (front, last) => some (a :: front, last)

/-- Keep the first occurrence of every element (the membership content of
Python `list(set(...))`, with a deterministic order). -/
def dedupKeepFirst : List String → List String
  | [] => []
  | a :: rest => a :: (dedupKeepFirst rest).filter (· ≠ a)

/-! ## Data model (from the source / odm models) -/

/-- Service descriptor (external catalog entry; the fields the dispatcher
reads). -/
structure Service where
  name : String
  category : String
  stage : String
  accepts : String
  rejects : String
  timeout : Int
  submission_params : List (String × String)
  deriving DecidableEq

/-- File metadata as returned by `datastore.file.get`. -/
structure FileData where
  magic : String
  md5 : String
  mime : String
  sha1 : String
  sha256 : String
  size : Nat
  ftype : String
  deriving DecidableEq

/-- The `file_info` block copied into a FileTask (same fields as
`FileData`; `ftype` stands for the Python attribute `type`). -/
structure FileInfo where
  magic : String
  md5 : String
  mime : String
  sha1 : String
  sha256 : String
  size : Nat
  ftype : String
  deriving DecidableEq

/-- Build the `file_info` dict from file metadata (dispatcher.py lines
152-159 and 228-235). -/
def FileInfo.ofData (fd : FileData) : FileInfo :=
  ⟨fd.magic, fd.md5, fd.mime, fd.sha1, fd.sha256, fd.size, fd.ftype⟩

/-- FileTask odm model: the in-flight envelope for one file of a
submission. -/
structure FileTask where
  sid : String
  file_info : FileInfo
  depth : Int
  max_files : Nat
  deriving DecidableEq

/-- Selected/excluded service (or category) names of a submission. -/
structure ServiceSelection where
  selected : List String
  excluded : List String
  deriving DecidableEq

/-- The submission parameters the dispatcher reads. -/
structure SubmissionParams where
  services : ServiceSelection
  service_spec : List (String × List (String × String))
  max_extracted : Nat
  ignore_filtering : Bool
  classification : Nat
  deriving DecidableEq

/-- A root file reference inside a submission. -/
structure SubmissionFile where
  sha256 : String
  deriving DecidableEq

/-- The submission record fields the dispatcher reads. -/
structure Submission where
  sid : String
  files : List SubmissionFile
  params : SubmissionParams
  deriving DecidableEq

/-- SubmissionTask odm model. -/
structure SubmissionTask where
  submission : Submission
  completed_queue : Option String
  deriving DecidableEq

/-- A result record as returned by `datastore.result.get`: its score, its
classification, and the sha256 of each extracted child
(`result.response.extracted`). -/
structure ResultRecord where
  score : Int
  classification : Nat
  extracted : List String
  deriving DecidableEq

/-- Modelled from the spec: a finish record in the dispatch hash
(`dispatch_hash.py` is not among the sources).  FinishRecord = {bucket ∈
{result, error}, key, score, drop}. -/
structure DispatchRow where
  bucket : String
  key : String
  score : Int
  drop : Bool
  deriving DecidableEq

/-- Modelled from the spec: "A `bucket=error` entry is marked `is_error`." -/
def DispatchRow.is_error (r : DispatchRow) : Bool :=
  r.bucket = "error"

/-- Modelled from the spec: the per-submission dispatch state kept in the
external store: per-file schedule cache, per-(file, service) dispatch
timestamps and finish records, and the set of admitted files. -/
structure DispatchHash where
  schedules : List (String × List (List String))
  dispatched : List ((String × String) × Int)
  rows : List ((String × String) × DispatchRow)
  files : List String
  deriving DecidableEq

/-- The empty dispatch state (also the state after `delete()`). -/
def DispatchHash.empty : DispatchHash :=
  ⟨[], [], [], []⟩

/-- Modelled from the spec: `schedule_get(sha)` reads the cached schedule. -/
def DispatchHash.schedulesGet (t : DispatchHash) (sha : String) :
    Option (List (List String)) :=
  alistGet t.schedules sha

/-- Modelled from the spec: `schedules.add` is the conditional (write-once)
set used by the schedule cache; it writes only when the key is absent. -/
def DispatchHash.schedulesAdd (t : DispatchHash) (sha : String)
    (v : List (List String)) : DispatchHash :=
  match alistGet t.schedules sha with
  | some _ => t
  | none => { t with schedules := alistPut t.schedules sha v }

/-- Modelled from the spec: `schedules.set` overwrites the cached schedule
unconditionally. -/
def DispatchHash.schedulesSet (t : DispatchHash) (sha : String)
    (v : List (List String)) : DispatchHash :=
  { t with schedules := alistPut t.schedules sha v }

/-- Modelled from the spec: `dispatch_time(sha, svc)` returns the last
dispatch timestamp or 0. -/
def DispatchHash.dispatch_time (t : DispatchHash) (sha svc : String) : Int :=
  (alistGet t.dispatched (sha, svc)).getD 0

/-- Modelled from the spec: `dispatch(sha, svc)` sets the dispatch timestamp
to now. -/
def DispatchHash.dispatch (t : DispatchHash) (sha svc : String) (now : Int) :
    DispatchHash :=
  { t with dispatched := alistPut t.dispatched (sha, svc) now }

/-- Modelled from the spec: `finished(sha, svc)` returns the finish record
or absent. -/
def DispatchHash.finished (t : DispatchHash) (sha svc : String) :
    Option DispatchRow :=
  alistGet t.rows (sha, svc)

/-- Modelled from the spec: `add_file(sha, max_files)` atomically admits sha
while under quota; returns true iff admitted or already admitted. -/
def DispatchHash.add_file (t : DispatchHash) (sha : String) (max_files : Nat) :
    Bool × DispatchHash :=
  if sha ∈ t.files then (true, t)
  else if t.files.length < max_files then
    (true, { t with files := t.files ++ [sha] })
  else (false, t)

/-- Modelled from the spec: `all_results()` is a snapshot of every finish
record of the submission (the finalizer only iterates the records). -/
def DispatchHash.all_results (t : DispatchHash) : List DispatchRow :=
  t.rows.map (·.2)

/-- Modelled from the spec: `all_finished()` is true iff every admitted
(sha, svc) in every stage of that file's cached schedule has a finish
record. -/
def DispatchHash.all_finished (t : DispatchHash) : Bool :=
  t.files.all fun sha =>
    match t.schedulesGet sha with
    | some stages => stages.all fun stage => stage.all fun svc => (t.finished sha svc).isSome
    | none => true

/-! ## External environment -/

/-- The external collaborators of a dispatcher worker: the enabled-service
catalog snapshot, the stage configuration, the extraction depth limit, the
datastore lookups, and Python's `re.match` truthiness as an abstract
predicate. -/
structure DispatchEnv where
  services : List Service
  stages : List String
  max_extraction_depth : Nat
  re_match : String → String → Bool
  filestore : String → Option FileData
  resultstore : String → Option ResultRecord

/-- `self.scheduler.services.get(name)`: catalog lookup by name. -/
def svcGet (catalog : List Service) (n : String) : Option Service :=
  catalog.find? (fun s => s.name = n)

/-! ## Scheduler (scheduler.py) -/

/-- `Scheduler.categories()`: map each category to the names of its
services, in catalog order (scheduler.py lines 103-110). -/
def Scheduler.categories (catalog : List Service) : List (String × List String) :=
  catalog.foldl
    (fun acc s =>
      match alistGet acc s.category with
      | some names => alistPut acc s.category (names ++ [s.name])
      | none => alistPut acc s.category [s.name])
    []

/-- One step of the `expand_categories` worklist: pop the LAST name; a
category name not yet "seen" mixes in its members; the buggy
`seen_categories.update(name)` adds the CHARACTERS of the name, so the
"seen" test `name in seen_categories` only ever fires for single-character
names (scheduler.py lines 84-98, bug kept faithfully). -/
def seenHas (seen : List Char) (name : String) : Bool :=
  match name.toList with
  | [c] => c ∈ seen
  | _ => false

/-- `Scheduler.expand_categories(services)` with explicit fuel: the Python
worklist loop can diverge (a multi-character category containing a service
of the same name), which the fuel models as `none`
(scheduler.py lines 70-101). -/
def Scheduler.expandCategories (cats : List (String × List String)) :
    Nat → List String → List Char → List String → Option (List String)
  | _, [], _, found => some (dedupKeepFirst found)
  | 0, _ :: _, _, _ => none
  | fuel + 1, worklist, seen, found =>
    match popLast worklist with
    | none => some (dedupKeepFirst found)
    | some (rest, name) =>
      match alistGet cats name with
      | some members =>
        if seenHas seen name then
          Scheduler.expandCategories cats fuel rest seen found
        else
          Scheduler.expandCategories cats fuel (rest ++ members)
            (seen ++ name.toList) found
      | none =>
        Scheduler.expandCategories cats fuel rest seen (found ++ [name])

/-- `Scheduler.expand_categories` entry point (None is modelled by the
caller passing the empty list, per scheduler.py lines 76-77). -/
def Scheduler.expand_categories (catalog : List Service) (fuel : Nat)
    (services : List String) : Option (List String) :=
  Scheduler.expandCategories (Scheduler.categories catalog) fuel services [] []

/-- `stage_index`: the index of the first occurrence of a stage name in the
configured stage list, `none` when absent (Python `list.index` raising;
scheduler.py lines 112-116). -/
def stageIndex : List String → String → Option Nat
  | [], _ => none
  | st0 :: rest, st =>
    if st0 = st then some 0 else (stageIndex rest st).map (· + 1)

/-- Insert a retained service into the stage row picked by
`stage_index(service.stage)`; a stage name absent from the configured list
is Python `list.index` raising, i.e. `none`
(scheduler.py lines 62-63 and 112-116). -/
def placeService (stages : List String) (schedule : List (List (String × Service)))
    (s : Service) : Option (List (List (String × Service))) :=
  match stageIndex stages s.stage with
  | none => none
  | some i => some (schedule.set i (schedule.getD i [] ++ [(s.name, s)]))

/-- The candidate loop of `Scheduler.build_schedule` (lines 51-66): look
each name up in the catalog (missing names are skipped with a warning),
keep it iff `accepts` is empty or matches and `rejects` is nonempty-and-
matches is false, and place it in its stage row. -/
def Scheduler.placeAll (env : DispatchEnv) (file_type : String) :
    List String → List (List (String × Service)) →
    Option (List (List (String × Service)))
  | [], schedule => some schedule
  | name :: rest, schedule =>
    match svcGet env.services name with
    | none => Scheduler.placeAll env file_type rest schedule
    | some service =>
      let accepted := service.accepts = "" ∨ env.re_match service.accepts file_type
      let rejected := service.rejects ≠ "" ∧ env.re_match service.rejects file_type
      if accepted ∧ ¬rejected then
        match placeService env.stages schedule service with
        | none => none
        | some schedule' => Scheduler.placeAll env file_type rest schedule'
      else Scheduler.placeAll env file_type rest schedule

/-- `Scheduler.build_schedule(submission, file_type)` (scheduler.py lines
33-68).  `fuel` bounds the category-expansion worklist.  The candidate list
`(set(selected) - set(excluded)) | set(system_services)` is modelled with a
deterministic order; the schedule rows are dicts in insertion order. -/
def Scheduler.build_schedule (env : DispatchEnv) (fuel : Nat)
    (submission : Submission) (file_type : String) :
    Option (List (List (String × Service))) :=
  match Scheduler.expand_categories env.services fuel submission.params.services.excluded with
  | none => none
  | some excluded =>
    let selectedSrc :=
      if submission.params.services.selected = [] then
        some (env.services.map (·.name))
      else
        Scheduler.expand_categories env.services fuel submission.params.services.selected
    match selectedSrc with
    | none => none
    | some selected =>
      let system_services := (env.services.filter (fun v => v.category = "system")).map (·.name)
      let names := dedupKeepFirst (selected.filter (· ∉ excluded) ++ system_services)
      let schedule : List (List (String × Service)) := env.stages.map (fun _ => [])
      Scheduler.placeAll env file_type names schedule

/-! ## Dispatcher.build_schedule (dispatcher.py lines 462-471) -/

/-- The cache-miss path of `Dispatcher.build_schedule`: compute the
schedule from the scheduler, keep only the names (`list(stage.keys())`),
store it with the conditional `add`, and return it. -/
def Dispatcher.computeSchedule (env : DispatchEnv) (fuel : Nat)
    (tbl : DispatchHash) (submission : Submission) (sha ftype : String) :
    Option (List (List String) × DispatchHash) :=
  match Scheduler.build_schedule env fuel submission ftype with
  | none => none
  | some obj =>
    let cs := obj.map (fun stage => stage.map (·.1))
    some (cs, tbl.schedulesAdd sha cs)

/-- `Dispatcher.build_schedule`: return the cached schedule when the cache
read is truthy (Python `if not cached_schedule:` — a present but EMPTY list
counts as a miss), otherwise compute and cache. -/
def Dispatcher.build_schedule (env : DispatchEnv) (fuel : Nat)
    (tbl : DispatchHash) (submission : Submission) (sha ftype : String) :
    Option (List (List String) × DispatchHash) :=
  match tbl.schedulesGet sha with
  | some c =>
    if c ≠ [] then some (c, tbl)
    else Dispatcher.computeSchedule env fuel tbl submission sha ftype
  | none => Dispatcher.computeSchedule env fuel tbl submission sha ftype

/-! ## File dispatcher (dispatcher.py lines 335-460) -/

/-- `Dispatcher.build_service_config` (dispatcher.py lines 473-484): the
defaults from the service's `submission_params`, overridden by
`submission.params.service_spec[name]` when present. -/
def Dispatcher.build_service_config (service : Service) (submission : Submission) :
    List (String × String) :=
  let params := service.submission_params
  match alistGet submission.params.service_spec service.name with
  | some spec => spec.foldl (fun acc kv => alistPut acc kv.1 kv.2) params
  | none => params

/-- The ServiceTask message pushed to a per-service queue (dispatcher.py
lines 424-431). -/
structure ServiceTask where
  sid : String
  service_name : String
  service_config : List (String × String)
  fileinfo : FileInfo
  depth : Int
  max_files : Nat
  deriving DecidableEq

/-- The FileScore cache record written on file completion (dispatcher.py
lines 442-449; the external passthrough fields psid and expiry_ts are not
modelled). -/
structure FileScoreRecord where
  score : Int
  errors : Nat
  sid : String
  time : Int
  deriving DecidableEq

/-- One stage of the `dispatch_file` schedule walk (dispatcher.py lines
386-405).  State: the `outstanding` dict (which stores the catalog lookup
result even when it is `None`), the accumulated score and error count, the
REMAINING schedule (so that `schedule.clear()` can empty it), and the
dispatch table.  The dead rewrite (lines 404-405) is translated literally:
the guard tests the schedule AFTER it has been cleared. -/
def fileStage (env : DispatchEnv) (sha : String) (ign : Bool)
    (started : List (List String)) :
    List String → List (String × Option Service) → Int → Nat →
    List (List String) → DispatchHash →
    List (String × Option Service) × Int × Nat × List (List String) × DispatchHash
  | [], out, score, errors, rest, tbl => (out, score, errors, rest, tbl)
  | name :: ns, out, score, errors, rest, tbl =>
    let service := svcGet env.services name
    match tbl.finished sha name with
    | none =>
      fileStage env sha ign started ns (alistPut out name service) score errors rest tbl
    | some fin =>
      if fin.is_error then
        fileStage env sha ign started ns out score (errors + 1) rest tbl
      else
        let score' := score + fin.score
        if !ign && fin.drop then
          let rest2 : List (List String) := []
          let tbl2 := if rest2.isEmpty then tbl else tbl.schedulesSet sha started
          fileStage env sha ign started ns out score' errors rest2 tbl2
        else
          fileStage env sha ign started ns out score' errors rest tbl

/-- A stage never grows the remaining schedule (it either keeps it or
clears it), which makes the stage loop terminate. -/
theorem fileStage_rest_le (env : DispatchEnv) (sha : String) (ign : Bool)
    (started : List (List String)) :
    ∀ (ns : List String) (out : List (String × Option Service)) (score : Int)
      (errors : Nat) (rest : List (List String)) (tbl : DispatchHash),
      (fileStage env sha ign started ns out score errors rest tbl).2.2.2.1.length ≤
        rest.length
  | [], out, score, errors, rest, tbl => le_refl _
  | name :: ns, out, score, errors, rest, tbl => by
    simp only [fileStage]
    cases h : tbl.finished sha name with
    | none => exact fileStage_rest_le env sha ign started ns _ _ _ _ _
    | some fin =>
      by_cases he : fin.is_error
      · simp only [he, if_true]
        exact fileStage_rest_le env sha ign started ns _ _ _ _ _
      · simp only [he, if_false]
        by_cases hd : (!ign && fin.drop) = true
        · simp only [hd, if_true]
          calc (fileStage env sha ign started ns out _ errors [] tbl).2.2.2.1.length
              ≤ ([] : List (List String)).length :=
                fileStage_rest_le env sha ign started ns _ _ _ _ _
            _ ≤ rest.length := by simp
        · simp only [hd, if_false]
          exact fileStage_rest_le env sha ign started ns _ _ _ _ _

/-- The `while schedule and not outstanding:` loop of `dispatch_file`
(dispatcher.py lines 382-405): pop each stage, record it as started, and
process it; stop when the schedule is exhausted (possibly by a drop
clearing it) or a stage left outstanding services.  The fuel only bounds
the loop; since a stage never grows the remaining schedule
(`fileStage_rest_le`), fuel equal to the schedule length always suffices
and the `none` case is unreachable from the call site. -/
def dispatchLoop (env : DispatchEnv) (sha : String) (ign : Bool) :
    Nat → List (List String) → List (List String) →
    List (String × Option Service) → Int → Nat → DispatchHash →
    Option (List (String × Option Service) × Int × Nat ×
            List (List String) × DispatchHash)
  | _, [], started, out, score, errors, tbl =>
    some (out, score, errors, started, tbl)
  | 0, _ :: _, _, _, _, _, _ => none
  | fuel + 1, stage :: rest, started, out, score, errors, tbl =>
    if out.isEmpty then
      let started' := started ++ [stage]
      match fileStage env sha ign started' stage out score errors rest tbl with
      | (out', score', errors', rest', tbl') =>
        dispatchLoop env sha ign fuel rest' started' out' score' errors' tbl'
    else some (out, score, errors, started, tbl)

/-- The outstanding-service dispatch loop (dispatcher.py lines 411-435):
skip a service whose dispatch window has not elapsed, otherwise push a
ServiceTask and stamp the dispatch time.  A `None` stored in the
outstanding dict is the Python crash at `service.timeout`. -/
def pushOutstanding (env : DispatchEnv) (submission : Submission)
    (task : FileTask) (sha : String) (now : Int) :
    List (String × Option Service) → DispatchHash →
    Option (List ServiceTask × DispatchHash)
  | [], tbl => some ([], tbl)
  | (name, oservice) :: rest, tbl =>
    match oservice with
    | none => none
    | some service =>
      let queued_time := now - tbl.dispatch_time sha name
      if queued_time < service.timeout then
        pushOutstanding env submission task sha now rest tbl
      else
        let config := Dispatcher.build_service_config service submission
        let st : ServiceTask :=
          ⟨task.sid, name, config, task.file_info, task.depth, task.max_files⟩
        match pushOutstanding env submission task sha now rest (tbl.dispatch sha name now) with
        | none => none
        | some (ps, tbl') => some (st :: ps, tbl')

/-- What one `dispatch_file` call produces: the updated dispatch state, the
ServiceTask messages pushed to per-service queues, the FileScore record (on
the file-done branch), and whether `{sid}` was pushed to the submission
queue. -/
structure FileDispatchResult where
  tbl : DispatchHash
  pushedTasks : List ServiceTask
  filescore : Option FileScoreRecord
  finalizeSignal : Bool
  deriving DecidableEq

/-- `Dispatcher.dispatch_file` (dispatcher.py lines 335-460).  An absent
active task is the untracked-submission early return; `none` is a Python
exception (catalog miss on an outstanding service, or a scheduler
failure). -/
def Dispatcher.dispatch_file (env : DispatchEnv) (fuel : Nat)
    (activeTask : Option SubmissionTask) (task : FileTask)
    (tbl : DispatchHash) (now : Int) : Option FileDispatchResult :=
  match activeTask with
  | none => some ⟨tbl, [], none, false⟩
  | some subTask =>
    let submission := subTask.submission
    let file_hash := task.file_info.sha256
    match Dispatcher.build_schedule env fuel tbl submission file_hash task.file_info.ftype with
    | none => none
    | some (schedule, tbl1) =>
      match dispatchLoop env file_hash submission.params.ignore_filtering
          schedule.length schedule [] [] 0 0 tbl1 with
      | none => none
      | some (outstanding, score, errors, _started, tbl2) =>
        if outstanding.isEmpty then
          some ⟨tbl2, [], some ⟨score, errors, submission.sid, now⟩, tbl2.all_finished⟩
        else
          match pushOutstanding env submission task file_hash now outstanding tbl2 with
          | none => none
          | some (pushed, tbl3) => some ⟨tbl3, pushed, none, false⟩

/-! ## Submission dispatcher (dispatcher.py lines 110-333) -/

/-- Build a FileTask from file metadata (dispatcher.py lines 150-163 and
226-239). -/
def mkFileTask (sid : String) (fd : FileData) (depth : Int) (max_files : Nat) :
    FileTask :=
  ⟨sid, FileInfo.ofData fd, depth, max_files⟩

/-- The extracted-children loop of the submission walk (dispatcher.py lines
212-239): record a parent edge for every child, and enqueue a FileTask
(depth sentinel -1) for a child not yet encountered whose metadata exists.
State: (encountered, file_parents, unchecked). -/
def processExtracted (env : DispatchEnv) (sid : String) (max_files : Nat)
    (sha : String) :
    List String → List String → List (String × List String) → List FileTask →
    List String × List (String × List String) × List FileTask
  | [], enc, parents, unchecked => (enc, parents, unchecked)
  | sub :: rest, enc, parents, unchecked =>
    let parents' := alistPut parents sub ((alistGet parents sub).getD [] ++ [sha])
    if sub ∈ enc then
      processExtracted env sid max_files sha rest enc parents' unchecked
    else
      let enc' := enc ++ [sub]
      match env.filestore sub with
      | none => processExtracted env sid max_files sha rest enc' parents' unchecked
      | some fd =>
        processExtracted env sid max_files sha rest enc' parents'
          (unchecked ++ [mkFileTask sid fd (-1) max_files])

/-- The mutable state of the submission walk (dispatcher.py lines 143-171). -/
structure WalkState where
  unchecked : List FileTask
  encountered : List String
  pending : List (String × FileTask)
  parentsMap : List (String × List String)
  maxScore : Option Int
  classifications : List Nat
  tbl : DispatchHash
  deriving DecidableEq

/-- The per-service body of the submission walk (dispatcher.py lines
183-246), translated branch for branch: the dispatch-window test runs
BEFORE the finish record is consulted; a drop clears the remaining schedule
before the result record is fetched; a missing result record skips
extraction and aggregation.  A missing catalog entry is the Python crash at
`service.timeout` (`none`). -/
def processService (env : DispatchEnv) (now : Int) (submission : Submission)
    (ft : FileTask) (st : WalkState) (rest : List (List String))
    (name : String) : Option (WalkState × List (List String)) :=
  match svcGet env.services name with
  | none => none
  | some service =>
    let sha := ft.file_info.sha256
    let runtime := now - st.tbl.dispatch_time sha name
    if runtime < service.timeout then
      some ({ st with pending := alistPut st.pending sha ft }, rest)
    else
      match st.tbl.finished sha name with
      | none => some ({ st with pending := alistPut st.pending sha ft }, rest)
      | some row =>
        if row.is_error then some (st, rest)
        else
          let rest' :=
            if !submission.params.ignore_filtering && row.drop then [] else rest
          match env.resultstore row.key with
          | none => some (st, rest')
          | some result =>
            match processExtracted env submission.sid ft.max_files sha
                result.extracted st.encountered st.parentsMap st.unchecked with
            | (enc', parents', unchecked') =>
              let ms := match st.maxScore with
                | none => some result.score
                | some m => some (max m result.score)
              some ({ st with
                        unchecked := unchecked'
                        encountered := enc'
                        parentsMap := parents'
                        maxScore := ms
                        classifications :=
                          st.classifications ++ [result.classification] },
                    rest')

/-- One stage of the submission walk: run `processService` for each name. -/
def walkStage (env : DispatchEnv) (now : Int) (submission : Submission)
    (ft : FileTask) :
    List String → WalkState → List (List String) →
    Option (WalkState × List (List String))
  | [], st, rest => some (st, rest)
  | name :: ns, st, rest =>
    match processService env now submission ft st rest name with
    | none => none
    | some (st', rest') => walkStage env now submission ft ns st' rest'

/-- `processService` never grows the remaining schedule. -/
theorem processService_rest_le (env : DispatchEnv) (now : Int)
    (submission : Submission) (ft : FileTask) (st : WalkState)
    (rest : List (List String)) (name : String) (st' : WalkState)
    (rest' : List (List String))
    (h : processService env now submission ft st rest name = some (st', rest')) :
    rest'.length ≤ rest.length := by
  unfold processService at h
  cases hs : svcGet env.services name with
  | none => rw [hs] at h; exact absurd h (by simp)
  | some service =>
    rw [hs] at h
    simp only at h
    by_cases ht : now - st.tbl.dispatch_time ft.file_info.sha256 name < service.timeout
    · rw [if_pos ht] at h
      cases h
      exact le_refl _
    · rw [if_neg ht] at h
      cases hf : st.tbl.finished ft.file_info.sha256 name with
      | none => rw [hf] at h; cases h; exact le_refl _
      | some row =>
        rw [hf] at h
        by_cases he : row.is_error
        · simp only [he, if_true] at h
          cases h
          exact le_refl _
        · simp only [he, if_false] at h
          by_cases hd : (!submission.params.ignore_filtering && row.drop) = true
          · simp only [hd, if_true] at h
            cases hr : env.resultstore row.key with
            | none => rw [hr] at h; cases h; simp
            | some result =>
              rw [hr] at h
              simp only at h
              cases h
              simp
          · simp only [hd, if_false] at h
            cases hr : env.resultstore row.key with
            | none => rw [hr] at h; cases h; exact le_refl _
            | some result =>
              rw [hr] at h
              simp only at h
              cases h
              exact le_refl _

/-- A stage of the submission walk never grows the remaining schedule. -/
theorem walkStage_rest_le (env : DispatchEnv) (now : Int)
    (submission : Submission) (ft : FileTask) :
    ∀ (ns : List String) (st : WalkState) (rest : List (List String))
      (st' : WalkState) (rest' : List (List String)),
      walkStage env now submission ft ns st rest = some (st', rest') →
      rest'.length ≤ rest.length
  | [], st, rest, st', rest', h => by
    simp only [walkStage] at h
    cases h
    exact le_refl _
  | name :: ns, st, rest, st', rest', h => by
    simp only [walkStage] at h
    cases hp : processService env now submission ft st rest name with
    | none => rw [hp] at h; exact absurd h (by simp)
    | some p =>
      rw [hp] at h
      exact le_trans (walkStage_rest_le env now submission ft ns p.1 p.2 st' rest' h)
        (processService_rest_le env now submission ft st rest name p.1 p.2 hp)

/-- The `while schedule:` loop of the submission walk (dispatcher.py lines
180-246).  The fuel only bounds the loop; since a stage never grows the
remaining schedule (`walkStage_rest_le`), fuel equal to the schedule length
always suffices and the fuel-exhaustion `none` is unreachable from the
call site. -/
def walkStages (env : DispatchEnv) (now : Int) (submission : Submission)
    (ft : FileTask) :
    Nat → List (List String) → WalkState → Option WalkState
  | _, [], st => some st
  | 0, _ :: _, _ => none
  | fuel + 1, stage :: rest, st =>
    match walkStage env now submission ft stage st rest with
    | none => none
    | some (st', rest') => walkStages env now submission ft fuel rest' st'

/-- The `while unchecked_files:` loop (dispatcher.py lines 175-246): pop the
last file task, build (or read) its schedule, and walk its stages.  `fuel`
bounds the loop, which Python bounds by only enqueueing each sha once. -/
def walkLoop (env : DispatchEnv) (efuel : Nat) (submission : Submission)
    (now : Int) : Nat → WalkState → Option WalkState
  | fuel, st =>
    match popLast st.unchecked with
    | none => some st
    | some (remaining, ft) =>
      match fuel with
      | 0 => none
      | fuel + 1 =>
        match Dispatcher.build_schedule env efuel st.tbl submission
            ft.file_info.sha256 ft.file_info.ftype with
        | none => none
        | some (schedule, tbl') =>
          match walkStages env now submission ft schedule.length schedule
              { st with unchecked := remaining, tbl := tbl' } with
          | none => none
          | some st' => walkLoop env efuel submission now fuel st'

/-- `file_depth` (dispatcher.py lines 250-254): a sha absent from the parent
map is a root at depth 0, otherwise one more than the minimum depth over its
parents.  The fuel models the unbounded Python recursion (a cycle, or an
empty parent list, is a crash: `none`). -/
def fileDepth (parents : List (String × List String)) :
    Nat → String → Option Nat
  | 0, _ => none
  | fuel + 1, sha =>
    match alistGet parents sha with
    | none => some 0
    | some ps =>
      match ps.mapM (fileDepth parents fuel) with
      | none => none
      | some [] => none
      | some (d :: ds) => some (ds.foldl min d + 1)

/-- Apply the recomputed depth to every pending file (dispatcher.py lines
257-258). -/
def applyDepths (parents : List (String × List String)) (fuel : Nat) :
    List (String × FileTask) → Option (List (String × FileTask))
  | [] => some []
  | (sha, ft) :: rest =>
    match fileDepth parents fuel sha with
    | none => none
    | some d =>
      match applyDepths parents fuel rest with
      | none => none
      | some rest' => some ((sha, { ft with depth := (d : Int) }) :: rest')

/-- The extraction-budget filter (dispatcher.py line 262): call `add_file`
on each pending sha in order, keeping only the admitted ones, threading the
dispatch state through the calls. -/
def admitPending (max_files : Nat) :
    List (String × FileTask) → DispatchHash →
    List (String × FileTask) × DispatchHash
  | [], tbl => ([], tbl)
  | (sha, ft) :: rest, tbl =>
    let (ok, tbl') := tbl.add_file sha max_files
    let (kept, tbl'') := admitPending max_files rest tbl'
    (if ok then (sha, ft) :: kept else kept, tbl'')

/-- The finalized submission record written to the datastore
(dispatcher.py lines 311-318). -/
structure FinalizedSubmission where
  classification : Nat
  error_count : Nat
  errors : List String
  file_count : Nat
  results : List String
  max_score : Int
  state : String
  deriving DecidableEq

/-- The error/result partition of `finalize_submission` (dispatcher.py
lines 299-308): error records contribute their key to `errors`, records
with bucket `result` to `results`, anything else only warns. -/
def partitionRows : List DispatchRow → List String × List String
  | [] => ([], [])
  | row :: rest =>
    let (errs, ress) := partitionRows rest
    if row.is_error then (row.key :: errs, ress)
    else if row.bucket = "result" then (errs, row.key :: ress)
    else (errs, ress)

/-- `Dispatcher.finalize_submission` (dispatcher.py lines 276-333): fold the
result classifications into the submission classification, partition the
dispatch-state snapshot into errors and results, write the completed
submission, and purge the dispatch state.  Queue and watcher notifications
are external effects not modelled. -/
def Dispatcher.finalize_submission (task : SubmissionTask)
    (result_classifications : List Nat) (maxScore : Option Int)
    (file_count : Nat) (tbl : DispatchHash) :
    FinalizedSubmission × DispatchHash :=
  let submission := task.submission
  let classification :=
    result_classifications.foldl max submission.params.classification
  let all := tbl.all_results
  let er := partitionRows all
  (⟨classification, er.1.length, er.1, file_count, er.2, maxScore.getD 0,
    "completed"⟩,
   DispatchHash.empty)

/-- What one `dispatch_submission` call produces: the FileTasks pushed to
the file queue, the finalized record when the submission completed, the
dispatch state, and the walk aggregates. -/
structure SubmissionResult where
  pendingOut : List (String × FileTask)
  finalized : Option FinalizedSubmission
  tbl : DispatchHash
  encountered : List String
  parentsMap : List (String × List String)
  maxScore : Option Int
  classifications : List Nat
  deriving DecidableEq

/-- `Dispatcher.dispatch_submission` (dispatcher.py lines 110-274): seed the
walk with the root files whose metadata exists, walk the file tree, then
recompute depths, drop the files at or over the depth limit, admit the rest
under the extraction budget, and either push the remaining pending files or
finalize with `file_count = len(encountered_files)`. -/
def Dispatcher.dispatch_submission (env : DispatchEnv) (efuel fuel : Nat)
    (task : SubmissionTask) (tbl : DispatchHash) (now : Int) :
    Option SubmissionResult :=
  let submission := task.submission
  let max_files := submission.files.length + submission.params.max_extracted
  let unchecked := submission.files.filterMap fun f =>
    (env.filestore f.sha256).map fun fd => mkFileTask submission.sid fd 0 max_files
  let encountered := submission.files.foldl (fun acc f => setInsert acc f.sha256) []
  let st0 : WalkState := ⟨unchecked, encountered, [], [], none, [], tbl⟩
  match walkLoop env efuel submission now fuel st0 with
  | none => none
  | some st =>
    match applyDepths st.parentsMap fuel st.pending with
    | none => none
    | some pending1 =>
      let pending2 :=
        pending1.filter fun p => p.2.depth < (env.max_extraction_depth : Int)
      let ad := admitPending max_files pending2 st.tbl
      if ad.1.isEmpty then
        let fin := Dispatcher.finalize_submission task st.classifications
          st.maxScore st.encountered.length ad.2
        some ⟨[], some fin.1, fin.2, st.encountered, st.parentsMap,
              st.maxScore, st.classifications⟩
      else
        some ⟨ad.1, none, ad.2, st.encountered, st.parentsMap,
              st.maxScore, st.classifications⟩

/-! ## Concrete fixtures for witnesses and counterexamples -/

/-- A service in stage `core` with a 60 second timeout that accepts every
file type. -/
def svCore : Service := ⟨"sv1", "av", "core", "", "", 60, []⟩

/-- A second service, in stage `post`. -/
def svPost : Service := ⟨"sv2", "av", "post", "", "", 60, []⟩

/-- Minimal file metadata for a given sha256. -/
def fdOf (sha : String) : FileData := ⟨"", "", "", "", sha, 0, "text/plain"⟩

/-- A non-error, non-drop finish record. -/
def resultRow (k : String) (score : Int) : DispatchRow := ⟨"result", k, score, false⟩

/-- A submission with a single root file `A`, `max_extracted = 2`, and
filtering enabled. -/
def subA : Submission := ⟨"S1", [⟨"A"⟩], ⟨⟨[], []⟩, [], 2, false, 0⟩⟩

/-- The root FileTask for `A`. -/
def ftA : FileTask := ⟨"S1", FileInfo.ofData (fdOf "A"), 0, 3⟩

/-- Environment for the submission-walk fixtures: one service, every file
type accepted, all file metadata present; result `kA` extracts five
children, `kc5`/`kc4` extract nothing. -/
def envA : DispatchEnv :=
  ⟨[svCore], ["core"], 10, fun _ _ => true, fun s => some (fdOf s),
   fun k =>
     if k = "kA" then some ⟨10, 1, ["c1", "c2", "c3", "c4", "c5"]⟩
     else if k = "kc5" then some ⟨3, 1, []⟩
     else if k = "kc4" then some ⟨4, 1, []⟩
     else none⟩

/-- Walk state for the C1 fixture: service `sv1` for file `A` was
dispatched at time 950 AND already has a finish record whose result `kc4`
(score 4) extracts nothing. -/
def c1St : WalkState :=
  ⟨[], ["A"], [], [], none, [],
   ⟨[], [(("A", "sv1"), 950)], [(("A", "sv1"), resultRow "kc4" 4)], []⟩⟩

/-- The C1 walk state after processing `sv1` at a time when the dispatch
window HAS elapsed: the result is aggregated and nothing is pending. -/
def c1StAfter : WalkState :=
  { c1St with maxScore := some 4, classifications := [1] }

/-- C1: the claim is FALSE on the code.  At time 1000 the service `sv1` for
file `A` HAS a finish record (a non-error result of score 4), yet because
only 50 of its 60 second dispatch window have elapsed, the walk marks `A`
pending on its account and does NOT aggregate its result (`max_score`
stays `none`, no classification is collected): the window test at
dispatcher.py line 187 runs before the finish record is read at line 192. -/
theorem c1_counterexample :
    (c1St.tbl.finished "A" "sv1").isSome = true ∧
    (1000 : Int) - c1St.tbl.dispatch_time "A" "sv1" < svCore.timeout ∧
    (processService envA 1000 subA ftA c1St [] "sv1").map
        (fun p => (p.1.pending.map (·.1), p.1.maxScore, p.1.classifications)) =
      some (["A"], none, []) := by
  refine ⟨by decide, by decide, ?_⟩
  rfl

/-- C1 (amended): in the submission walk a file is classified pending for a
service iff the service's dispatch window has not yet elapsed (REGARDLESS
of any finish record) or the window has elapsed and there is no finish
record; a result is aggregated into `max_score` and the classification list
iff the window has elapsed, a non-error finish record exists, and its
result record is found in the datastore. -/
theorem c1_amended (env : DispatchEnv) (now : Int) (submission : Submission)
    (ft : FileTask) (st : WalkState) (rest : List (List String)) (name : String)
    (service : Service) (st' : WalkState) (rest' : List (List String))
    (hsvc : svcGet env.services name = some service)
    (h : processService env now submission ft st rest name = some (st', rest')) :
    st'.pending =
      (if now - st.tbl.dispatch_time ft.file_info.sha256 name < service.timeout ∨
          st.tbl.finished ft.file_info.sha256 name = none
       then alistPut st.pending ft.file_info.sha256 ft else st.pending) ∧
    (st'.classifications = st.classifications ++
        (match (if now - st.tbl.dispatch_time ft.file_info.sha256 name < service.timeout
                then none
                else match st.tbl.finished ft.file_info.sha256 name with
                  | none => none
                  | some row =>
                    if row.is_error then none else env.resultstore row.key) with
          | none => []
          | some r => [r.classification])) ∧
    (st'.maxScore =
        (match (if now - st.tbl.dispatch_time ft.file_info.sha256 name < service.timeout
                then none
                else match st.tbl.finished ft.file_info.sha256 name with
                  | none => none
                  | some row =>
                    if row.is_error then none else env.resultstore row.key) with
          | none => st.maxScore
          | some r =>
            match st.maxScore with
            | none => some r.score
            | some m => some (max m r.score))) := by
  unfold processService at h
  rw [hsvc] at h
  simp only at h
  by_cases hw : now - st.tbl.dispatch_time ft.file_info.sha256 name < service.timeout
  · rw [if_pos hw] at h
    have hp := Option.some.inj h
    have hst : st' = _ := (congrArg Prod.fst hp).symm
    subst hst
    simp [hw]
  · rw [if_neg hw] at h
    cases hf : st.tbl.finished ft.file_info.sha256 name with
    | none =>
      rw [hf] at h
      have hp := Option.some.inj h
      have hst : st' = _ := (congrArg Prod.fst hp).symm
      subst hst
      simp [hw, hf]
    | some row =>
      rw [hf] at h
      by_cases he : row.is_error
      · simp only [he, if_true] at h
        have hp := Option.some.inj h
        have hst : st' = _ := (congrArg Prod.fst hp).symm
        subst hst
        simp [hw, hf, he]
      · simp only [he, if_false] at h
        cases hr : env.resultstore row.key with
        | none =>
          rw [hr] at h
          have hp := Option.some.inj h
          have hst : st' = _ := (congrArg Prod.fst hp).symm
          subst hst
          simp [hw, hf, he, hr]
        | some result =>
          rw [hr] at h
          have hp := Option.some.inj h
          have hst : st' = _ := (congrArg Prod.fst hp).symm
          subst hst
          simp [hw, hf, he, hr]

/-- Witness for the amended C1 at a concrete input: at time 1100 the window
has elapsed, so the finished service aggregates its result and marks
nothing pending. -/
theorem c1_amended_witness :
    svcGet envA.services "sv1" = some svCore ∧
    processService envA 1100 subA ftA c1St [] "sv1" = some (c1StAfter, []) ∧
    (c1StAfter.pending =
      (if (1100 : Int) - c1St.tbl.dispatch_time ftA.file_info.sha256 "sv1" < svCore.timeout ∨
          c1St.tbl.finished ftA.file_info.sha256 "sv1" = none
       then alistPut c1St.pending ftA.file_info.sha256 ftA else c1St.pending) ∧
     (c1StAfter.classifications = c1St.classifications ++
        (match (if (1100 : Int) - c1St.tbl.dispatch_time ftA.file_info.sha256 "sv1" < svCore.timeout
                then none
                else match c1St.tbl.finished ftA.file_info.sha256 "sv1" with
                  | none => none
                  | some row =>
                    if row.is_error then none else envA.resultstore row.key) with
          | none => []
          | some r => [r.classification])) ∧
     (c1StAfter.maxScore =
        (match (if (1100 : Int) - c1St.tbl.dispatch_time ftA.file_info.sha256 "sv1" < svCore.timeout
                then none
                else match c1St.tbl.finished ftA.file_info.sha256 "sv1" with
                  | none => none
                  | some row =>
                    if row.is_error then none else envA.resultstore row.key) with
          | none => c1St.maxScore
          | some r =>
            match c1St.maxScore with
            | none => some r.score
            | some m => some (max m r.score)))) :=
  ⟨by decide, by decide,
   c1_amended envA 1100 subA ftA c1St [] "sv1" svCore c1StAfter [] (by decide) (by decide)⟩

/-- Two-stage environment (`core` then `post`) with services `sv1` and
`sv2`; no result records are needed by the file-dispatcher fixtures. -/
def envB : DispatchEnv :=
  ⟨[svCore, svPost], ["core", "post"], 10, fun _ _ => true,
   fun s => some (fdOf s), fun _ => none⟩

/-- A submission over root file `F` with filtering enabled. -/
def subF : Submission := ⟨"S1", [⟨"F"⟩], ⟨⟨[], []⟩, [], 2, false, 0⟩⟩

/-- The FileTask for `F`. -/
def ftF : FileTask := ⟨"S1", FileInfo.ofData (fdOf "F"), 0, 3⟩

/-- C2 fixture: `F` is admitted, and `sv1` (stage `core`) finished with
`drop = true`; the later stage `post` has not started. -/
def c2Tbl : DispatchHash :=
  ⟨[], [], [(("F", "sv1"), ⟨"result", "k1", 5, true⟩)], ["F"]⟩

/-- C2: the claim is FALSE on the code, and the code contradicts its own
comment ("If there are still stages in the schedule, over write them for
next time", dispatcher.py line 404).  On a schedule `[[sv1], [sv2]]` where
`sv1` finished with `drop = true`, filtering enabled, and the later stage
`post` not yet started, `dispatch_file` truncates the walk (no ServiceTask
is pushed for `sv2`; the file is treated as done with only sv1's score 5)
BUT the cached schedule is still `[[sv1], [sv2]]`: the rewrite to the
started stages `[[sv1]]` never executes, because its guard tests the
schedule list immediately after `schedule.clear()` emptied it. -/
theorem c2_dead_rewrite_eval :
    (Dispatcher.dispatch_file envB 10 (some ⟨subF, none⟩) ftF c2Tbl 1000).map
        (fun r => (r.tbl.schedulesGet "F", r.pushedTasks,
                   r.filescore.map (fun fs => (fs.score, fs.errors)))) =
      some (some [["sv1"], ["sv2"]], [], some (5, 0)) ∧
    some [["sv1"], ["sv2"]] ≠ some [["sv1"]] := by
  exact ⟨by decide, by decide⟩

/-- Submission task around `subA` for the extraction-budget fixture. -/
def taskA : SubmissionTask := ⟨subA, none⟩

/-- Pass 1 of the C6 run: clean dispatch state, nothing finished; the root
`A` becomes pending and is admitted. -/
def c6Pass1 : SubmissionResult :=
  match Dispatcher.dispatch_submission envA 10 100 taskA DispatchHash.empty 1000 with
  | some r => r
  | none => ⟨[], none, DispatchHash.empty, [], [], none, []⟩

/-- Dispatch state before pass 2: the state left by pass 1 with a finish
record for `(A, sv1)` whose result `kA` (score 10) extracts the five
children `c1..c5`. -/
def c6Tbl1 : DispatchHash :=
  { c6Pass1.tbl with rows := [(("A", "sv1"), resultRow "kA" 10)] }

/-- Pass 2 of the C6 run: the five extracted children become pending and
the budget `max_files = 1 + 2 = 3` admits exactly two of them. -/
def c6Pass2 : SubmissionResult :=
  match Dispatcher.dispatch_submission envA 10 100 taskA c6Tbl1 2000 with
  | some r => r
  | none => ⟨[], none, DispatchHash.empty, [], [], none, []⟩

/-- Dispatch state before pass 3: the two admitted children have finished. -/
def c6Tbl2 : DispatchHash :=
  { c6Pass2.tbl with
      rows := c6Pass2.tbl.rows ++
        [(("c5", "sv1"), resultRow "kc5" 3), (("c4", "sv1"), resultRow "kc4" 4)] }

/-- Pass 3 of the C6 run: the three unadmitted children all fail
`add_file`, nothing is pending, and the submission finalizes. -/
def c6Pass3 : SubmissionResult :=
  match Dispatcher.dispatch_submission envA 10 100 taskA c6Tbl2 3000 with
  | some r => r
  | none => ⟨[], none, DispatchHash.empty, [], [], none, []⟩

/-- C6: the claim is FALSE on the code.  In the scenario it describes (one
root file, `max_extracted = 2`, the root's result extracts five children)
exactly two children are indeed admitted, but the submission finalizes with
`file_count = 6`, not 3: dispatcher.py line 274 passes
`len(encountered_files)` — every sha256 seen in the walk, root plus all
five extracted children — not the number of admitted files. -/
theorem c6_counterexample :
    c6Pass3.finalized.map (·.file_count) = some 6 ∧
    c6Pass3.finalized.map (·.file_count) ≠ some 3 := by
  exact ⟨by decide, by decide⟩

/-- C6 (amended): with one root, `max_extracted = 2` and five extracted
children, exactly two children (`c5`, `c4`, the first two pending ones
checked) are admitted via `add_file` and pushed, the other three are
silently dropped, and the submission is finalized with `file_count = 6`:
the number of ENCOUNTERED sha256s (root plus all five children), not the
number of admitted files. -/
theorem c6_amended :
    Dispatcher.dispatch_submission envA 10 100 taskA c6Tbl1 2000 = some c6Pass2 ∧
    c6Pass2.pendingOut.map (·.1) = ["c5", "c4"] ∧
    c6Pass2.tbl.files = ["A", "c5", "c4"] ∧
    Dispatcher.dispatch_submission envA 10 100 taskA c6Tbl2 3000 = some c6Pass3 ∧
    c6Pass3.pendingOut = [] ∧
    c6Pass3.encountered = ["A", "c1", "c2", "c3", "c4", "c5"] ∧
    c6Pass3.finalized.map (fun f => (f.file_count, f.state, f.max_score)) =
      some (6, "completed", 10) := by
  refine ⟨by rfl, by decide, by decide, by rfl, by decide, by decide, by decide⟩

/-- The error/result partition equals a pair of filters over the snapshot:
error records contribute their keys to the first component, non-error
records with bucket `result` to the second, and records with any other
bucket to neither. -/
theorem partitionRows_eq (rows : List DispatchRow) :
    partitionRows rows =
      ((rows.filter (fun r => r.is_error)).map (·.key),
       (rows.filter (fun r => !r.is_error && r.bucket == "result")).map (·.key)) := by
  induction rows with
  | nil => rfl
  | cons r rest ih =>
    simp only [partitionRows, ih, List.filter_cons]
    by_cases he : r.is_error
    · simp [he]
    · by_cases hb : r.bucket = "result"
      · simp [he, hb]
      · simp [he, hb]

/-- C8: `finalize_submission` puts the key of every finish record marked as
an error into `errors`, the key of every non-error record with bucket
`result` into `results`, and records with any other bucket into neither
list (the filter characterization); it sets `error_count` to the length of
the errors list, `state` to `completed`, and `max_score` to 0 when no
scoring result was recorded during the walk (`max_score or 0`, which is
`getD 0` on an optional score). -/
theorem c8_finalize_partition (task : SubmissionTask) (cls : List Nat)
    (ms : Option Int) (fc : Nat) (tbl : DispatchHash) :
    (Dispatcher.finalize_submission task cls ms fc tbl).1.errors =
        (tbl.all_results.filter (fun r => r.is_error)).map (·.key) ∧
    (Dispatcher.finalize_submission task cls ms fc tbl).1.results =
        (tbl.all_results.filter (fun r => !r.is_error && r.bucket == "result")).map (·.key) ∧
    (Dispatcher.finalize_submission task cls ms fc tbl).1.error_count =
        (Dispatcher.finalize_submission task cls ms fc tbl).1.errors.length ∧
    (Dispatcher.finalize_submission task cls ms fc tbl).1.state = "completed" ∧
    (Dispatcher.finalize_submission task cls ms fc tbl).1.max_score = ms.getD 0 := by
  unfold Dispatcher.finalize_submission
  simp [partitionRows_eq]

/-- Folding `setInsert` over a duplicate-free list disjoint from the
accumulator just appends the list. -/
theorem foldl_setInsert_of_nodup :
    ∀ (l : List String) (acc : List String),
      (∀ x ∈ l, x ∉ acc) → l.Nodup → l.foldl setInsert acc = acc ++ l
  | [], acc, _, _ => by simp
  | a :: rest, acc, hdisj, hnodup => by
    simp only [List.foldl_cons]
    have ha : setInsert acc a = acc ++ [a] := by
      unfold setInsert
      rw [if_neg (hdisj a (List.mem_cons_self a rest))]
    rw [ha, foldl_setInsert_of_nodup rest (acc ++ [a]) ?_ (List.Nodup.of_cons hnodup)]
    · simp
    · intro x hx
      simp only [List.mem_append, List.mem_singleton]
      rintro (hc | hc)
      · exact hdisj x (List.mem_cons_of_mem a hx) hc
      · subst hc
        exact (List.nodup_cons.mp hnodup).1 hx

/-- The submission walk of `dispatch_submission` does nothing when the
unchecked list is empty. -/
theorem walkLoop_nil (env : DispatchEnv) (efuel : Nat) (submission : Submission)
    (now : Int) (fuel : Nat) (st : WalkState) (h : st.unchecked = []) :
    walkLoop env efuel submission now fuel st = some st := by
  rw [walkLoop, h]
  rfl

/-- C10: when the file-metadata lookup fails for every root file and the
dispatch state holds no finish records, a single `dispatch_submission` call
immediately finalizes the submission: state `completed`, `max_score` 0,
empty results and errors, and `file_count` equal to the number of root
files — the missing roots are all counted in `file_count` (they seed
`encountered_files` at line 165 before any metadata check) even though none
of them was ever dispatched to any service. -/
theorem c10_missing_roots (env : DispatchEnv) (efuel fuel : Nat)
    (task : SubmissionTask) (tbl : DispatchHash) (now : Int)
    (hmiss : ∀ f ∈ task.submission.files, env.filestore f.sha256 = none)
    (hrows : tbl.rows = [])
    (hnodup : (task.submission.files.map (·.sha256)).Nodup) :
    Dispatcher.dispatch_submission env efuel fuel task tbl now =
      some ⟨[], some ⟨task.submission.params.classification, 0, [],
              task.submission.files.length, [], 0, "completed"⟩,
            DispatchHash.empty, task.submission.files.map (·.sha256),
            [], none, []⟩ := by
  have hunch : (task.submission.files.filterMap fun f =>
      (env.filestore f.sha256).map fun fd =>
        mkFileTask task.submission.sid fd 0
          (task.submission.files.length + task.submission.params.max_extracted)) = [] := by
    rw [List.filterMap_eq_nil]
    intro f hf
    rw [hmiss f hf]
    rfl
  have henc : task.submission.files.foldl (fun acc f => setInsert acc f.sha256) [] =
      task.submission.files.map (·.sha256) := by
    have hm := List.foldl_map (fun f : SubmissionFile => f.sha256) setInsert
      task.submission.files []
    rw [← hm, foldl_setInsert_of_nodup _ [] (by simp) hnodup]
    simp
  unfold Dispatcher.dispatch_submission
  simp only [hunch, henc]
  rw [walkLoop_nil env efuel task.submission now fuel _ rfl]
  simp only [applyDepths, admitPending, List.filter_nil, List.isEmpty_nil]
  unfold Dispatcher.finalize_submission
  simp [DispatchHash.all_results, hrows, partitionRows, List.length_map]

/-- Environment whose file-metadata lookup always fails. -/
def c10Env : DispatchEnv :=
  ⟨[svCore], ["core"], 10, fun _ _ => true, fun _ => none, fun _ => none⟩

/-- A submission with two root files `r1`, `r2` (classification 7). -/
def c10Task : SubmissionTask :=
  ⟨⟨"S2", [⟨"r1"⟩, ⟨"r2"⟩], ⟨⟨[], []⟩, [], 2, false, 7⟩⟩, none⟩

/-- Witness for C10 at a concrete input: both roots missing, empty dispatch
state; the single call finalizes with `file_count = 2`. -/
theorem c10_missing_roots_witness :
    (∀ f ∈ c10Task.submission.files, c10Env.filestore f.sha256 = none) ∧
    DispatchHash.empty.rows = [] ∧
    (c10Task.submission.files.map (·.sha256)).Nodup ∧
    Dispatcher.dispatch_submission c10Env 10 100 c10Task DispatchHash.empty 1000 =
      some ⟨[], some ⟨7, 0, [], 2, [], 0, "completed"⟩, DispatchHash.empty,
            ["r1", "r2"], [], none, []⟩ :=
  ⟨by decide, by decide, by decide,
   c10_missing_roots c10Env 10 100 c10Task DispatchHash.empty 1000
     (by decide) (by decide) (by decide)⟩

/-- Writing an absent key makes a later read return the written value. -/
theorem alistGet_put_self {κ α : Type} [DecidableEq κ]
    (l : List (κ × α)) (k : κ) (v : α) : alistGet (alistPut l k v) k = some v := by
  induction l with
  | nil => simp [alistGet, alistPut, List.find?]
  | cons p rest ih =>
    by_cases h : p.1 = k
    · simp [alistPut, h, alistGet, List.find?]
    · simp only [alistPut]
      rw [if_neg (by exact fun hc => h (by cases p; exact hc))]
      simpa [alistGet, List.find?, h] using ih

/-- The schedule stored by the conditional add is read back. -/
theorem schedulesGet_add_self (t : DispatchHash) (sha : String)
    (v : List (List String)) (h : t.schedulesGet sha = none) :
    (t.schedulesAdd sha v).schedulesGet sha = some v := by
  unfold DispatchHash.schedulesAdd
  unfold DispatchHash.schedulesGet at h ⊢
  rw [h]
  exact alistGet_put_self t.schedules sha v

/-- The conditional add is a no-op on a present key. -/
theorem schedulesAdd_present (t : DispatchHash) (sha : String)
    (v c : List (List String)) (h : t.schedulesGet sha = some c) :
    t.schedulesAdd sha v = t := by
  unfold DispatchHash.schedulesAdd
  unfold DispatchHash.schedulesGet at h
  rw [h]

/-- C3: the schedule cache of `Dispatcher.build_schedule`.
(i) A non-empty cached value is returned as-is with the state untouched.
(ii) On a cache miss the schedule is computed from the scheduler, stored,
and returned (so a later read sees it).
(iii) Stability: rerunning `build_schedule` on the state left by a previous
run returns the same schedule and the same state, so the schedule value
returned for a (sid, sha256) is the same across all later dispatch passes. -/
theorem c3_schedule_cache (env : DispatchEnv) (fuel : Nat) (tbl : DispatchHash)
    (submission : Submission) (sha ftype : String) :
    (∀ c, tbl.schedulesGet sha = some c → c ≠ [] →
       Dispatcher.build_schedule env fuel tbl submission sha ftype = some (c, tbl)) ∧
    (tbl.schedulesGet sha = none →
       ∀ s tbl', Dispatcher.build_schedule env fuel tbl submission sha ftype =
           some (s, tbl') →
         (∃ obj, Scheduler.build_schedule env fuel submission ftype = some obj ∧
            s = obj.map (fun stage => stage.map (·.1))) ∧
         tbl'.schedulesGet sha = some s) ∧
    (∀ s tbl', Dispatcher.build_schedule env fuel tbl submission sha ftype =
        some (s, tbl') →
      Dispatcher.build_schedule env fuel tbl' submission sha ftype =
        some (s, tbl')) := by
  refine ⟨?_, ?_, ?_⟩
  · intro c hc hne
    unfold Dispatcher.build_schedule
    rw [hc]
    simp only
    rw [if_pos hne]
  · intro hc s tbl' h
    unfold Dispatcher.build_schedule at h
    rw [hc] at h
    simp only at h
    unfold Dispatcher.computeSchedule at h
    cases hobj : Scheduler.build_schedule env fuel submission ftype with
    | none => rw [hobj] at h; exact absurd h (by simp)
    | some obj =>
      rw [hobj] at h
      simp only [Option.some.injEq, Prod.mk.injEq] at h
      obtain ⟨hs, htbl⟩ := h
      subst hs
      subst htbl
      exact ⟨⟨obj, rfl, rfl⟩, schedulesGet_add_self tbl sha _ hc⟩
  · intro s tbl' h
    unfold Dispatcher.build_schedule at h ⊢
    cases hc : tbl.schedulesGet sha with
    | some c =>
      rw [hc] at h
      simp only at h
      by_cases hne : c ≠ []
      · rw [if_pos hne] at h
        have hp := Option.some.inj h
        have hs : s = c := (congrArg Prod.fst hp).symm
        have ht : tbl' = tbl := (congrArg Prod.snd hp).symm
        subst hs; subst ht
        rw [hc]
        simp only
        rw [if_pos hne]
      · rw [if_neg hne] at h
        push_neg at hne
        subst hne
        unfold Dispatcher.computeSchedule at h ⊢
        cases hobj : Scheduler.build_schedule env fuel submission ftype with
        | none => rw [hobj] at h; exact absurd h (by simp)
        | some obj =>
          rw [hobj] at h
          simp only [Option.some.injEq, Prod.mk.injEq] at h
          obtain ⟨hs, htbl⟩ := h
          subst hs
          rw [schedulesAdd_present tbl sha _ [] hc] at htbl
          subst htbl
          rw [hc]
          simp only
          rw [if_neg (fun hx => hx rfl)]
          rw [schedulesAdd_present tbl sha _ [] hc]
    | none =>
      rw [hc] at h
      simp only at h
      unfold Dispatcher.computeSchedule at h ⊢
      cases hobj : Scheduler.build_schedule env fuel submission ftype with
      | none => rw [hobj] at h; exact absurd h (by simp)
      | some obj =>
        rw [hobj] at h
        simp only [Option.some.injEq, Prod.mk.injEq] at h
        obtain ⟨hs, htbl⟩ := h
        subst hs
        subst htbl
        have hget := schedulesGet_add_self tbl sha
          (obj.map (fun stage => stage.map (·.1))) hc
        rw [hget]
        simp only
        by_cases hse : obj.map (fun stage => stage.map (·.1)) ≠ []
        · rw [if_pos hse]
        · rw [if_neg hse]
          rw [schedulesAdd_present _ sha _ _ hget]

/-- Witness for C3 at a concrete input: a cached non-empty schedule is
returned unchanged. -/
theorem c3_schedule_cache_witness :
    (⟨[("F", [["sv1"]])], [], [], []⟩ : DispatchHash).schedulesGet "F" =
      some [["sv1"]] ∧
    Dispatcher.build_schedule envB 10 ⟨[("F", [["sv1"]])], [], [], []⟩ subF "F"
        "text/plain" =
      some ([["sv1"]], ⟨[("F", [["sv1"]])], [], [], []⟩) :=
  ⟨by decide,
   (c3_schedule_cache envB 10 ⟨[("F", [["sv1"]])], [], [], []⟩ subF "F"
       "text/plain").1 [["sv1"]] (by decide) (by decide)⟩

/-- `add_file` admission only filters the pending list: every kept entry
was pending. -/
theorem admitPending_subset (max_files : Nat) :
    ∀ (l : List (String × FileTask)) (tbl : DispatchHash)
      (p : String × FileTask),
      p ∈ (admitPending max_files l tbl).1 → p ∈ l
  | [], _, _, h => by simp [admitPending] at h
  | (sha, ft) :: rest, tbl, p, h => by
    simp only [admitPending] at h
    by_cases hok : (tbl.add_file sha max_files).1 = true
    · rw [if_pos hok] at h
      rcases List.mem_cons.mp h with hh | hh
      · exact hh ▸ List.mem_cons_self _ _
      · exact List.mem_cons_of_mem _ (admitPending_subset max_files rest _ p hh)
    · rw [if_neg hok] at h
      exact List.mem_cons_of_mem _ (admitPending_subset max_files rest _ p h)

/-- Every entry of the depth-applied pending list carries exactly the
recomputed `file_depth` of its sha. -/
theorem applyDepths_mem (parents : List (String × List String)) (fuel : Nat) :
    ∀ (l l' : List (String × FileTask)) (sha : String) (ft : FileTask),
      applyDepths parents fuel l = some l' → (sha, ft) ∈ l' →
      ∃ d : Nat, fileDepth parents fuel sha = some d ∧ ft.depth = (d : Int)
  | [], l', sha, ft, h, hmem => by
    simp only [applyDepths] at h
    rw [← Option.some.inj h] at hmem
    simp at hmem
  | (sha0, ft0) :: rest, l', sha, ft, h, hmem => by
    simp only [applyDepths] at h
    cases hd : fileDepth parents fuel sha0 with
    | none => rw [hd] at h; exact absurd h (by simp)
    | some d =>
      rw [hd] at h
      cases hrest : applyDepths parents fuel rest with
      | none => rw [hrest] at h; exact absurd h (by simp)
      | some rest' =>
        rw [hrest] at h
        simp only at h
        rw [← Option.some.inj h] at hmem
        rcases List.mem_cons.mp hmem with hh | hh
        · have h1 : sha0 = sha := congrArg Prod.fst hh.symm
          have h2 : ft = { ft0 with depth := (d : Int) } := congrArg Prod.snd hh
          subst h1
          exact ⟨d, hd, by rw [h2]⟩
        · exact applyDepths_mem parents fuel rest rest' sha ft hrest hh

/-- C9: after the walk, every file pushed as pending carries a depth equal
to the recomputed `file_depth` over the parent map (minimum over parents of
parent depth + 1, roots at 0), and that depth is strictly below
`max_extraction_depth`. -/
theorem c9_depth_bound (env : DispatchEnv) (efuel fuel : Nat)
    (task : SubmissionTask) (tbl : DispatchHash) (now : Int)
    (res : SubmissionResult)
    (h : Dispatcher.dispatch_submission env efuel fuel task tbl now = some res)
    (sha : String) (ft : FileTask) (hmem : (sha, ft) ∈ res.pendingOut) :
    ∃ d : Nat, fileDepth res.parentsMap fuel sha = some d ∧
      ft.depth = (d : Int) ∧ (d : Int) < (env.max_extraction_depth : Int) := by
  unfold Dispatcher.dispatch_submission at h
  simp only at h
  cases hwalk : walkLoop env efuel task.submission now fuel
      ⟨task.submission.files.filterMap fun f =>
          (env.filestore f.sha256).map fun fd =>
            mkFileTask task.submission.sid fd 0
              (task.submission.files.length + task.submission.params.max_extracted),
        task.submission.files.foldl (fun acc f => setInsert acc f.sha256) [],
        [], [], none, [], tbl⟩ with
  | none => rw [hwalk] at h; exact absurd h (by simp)
  | some st =>
    rw [hwalk] at h
    simp only at h
    cases hdep : applyDepths st.parentsMap fuel st.pending with
    | none => rw [hdep] at h; exact absurd h (by simp)
    | some pending1 =>
      rw [hdep] at h
      simp only at h
      by_cases hemp : (admitPending
          (task.submission.files.length + task.submission.params.max_extracted)
          (pending1.filter fun p =>
            p.2.depth < (env.max_extraction_depth : Int)) st.tbl).1.isEmpty = true
      · rw [if_pos hemp] at h
        have hres := (Option.some.inj h).symm
        subst hres
        simp at hmem
      · rw [if_neg hemp] at h
        have hres := (Option.some.inj h).symm
        subst hres
        simp only at hmem
        have hfil := admitPending_subset _ _ _ _ hmem
        have hfil2 := List.mem_filter.mp hfil
        obtain ⟨hmem1, hlt⟩ := hfil2
        obtain ⟨d, hd, hdepth⟩ := applyDepths_mem st.parentsMap fuel
          st.pending pending1 sha ft hdep hmem1
        refine ⟨d, hd, hdepth, ?_⟩
        have := of_decide_eq_true hlt
        rw [hdepth] at this
        exact this

/-- Witness for C9 at a concrete input: the first pass of the
extraction-budget fixture leaves the root `A` pending at depth 0 with
`max_extraction_depth = 10`. -/
theorem c9_depth_bound_witness :
    Dispatcher.dispatch_submission envA 10 100 taskA DispatchHash.empty 1000 =
      some c6Pass1 ∧
    ("A", ftA) ∈ c6Pass1.pendingOut ∧
    (∃ d : Nat, fileDepth c6Pass1.parentsMap 100 "A" = some d ∧
      ftA.depth = (d : Int) ∧ (d : Int) < (envA.max_extraction_depth : Int)) :=
  ⟨by rfl, by decide,
   c9_depth_bound envA 10 100 taskA DispatchHash.empty 1000 c6Pass1
     (by rfl) "A" ftA (by decide)⟩

/-- Writing one key leaves every other key's binding unchanged. -/
theorem alistGet_put_ne {κ α : Type} [DecidableEq κ]
    (l : List (κ × α)) (k k' : κ) (v : α) (hne : k' ≠ k) :
    alistGet (alistPut l k v) k' = alistGet l k' := by
  induction l with
  | nil => simp [alistGet, alistPut, List.find?, Ne.symm hne]
  | cons p rest ih =>
    obtain ⟨pk, pv⟩ := p
    by_cases h : pk = k
    · subst h
      simp only [alistPut, if_pos rfl]
      simp [alistGet, List.find?, hne, Ne.symm hne]
    · simp only [alistPut, if_neg h]
      by_cases h2 : pk = k'
      · subst h2
        simp [alistGet, List.find?]
      · simpa [alistGet, List.find?, fun hx => h2 (by exact hx), h2] using ih

/-- A member of `alistPut l k v` is a member of `l` or the new binding. -/
theorem alistPut_mem {κ α : Type} [DecidableEq κ]
    (l : List (κ × α)) (k : κ) (v : α) (p : κ × α)
    (h : p ∈ alistPut l k v) : p ∈ l ∨ p = (k, v) := by
  induction l with
  | nil => simp [alistPut] at h; exact Or.inr h
  | cons q rest ih =>
    obtain ⟨qk, qv⟩ := q
    by_cases hk : qk = k
    · subst hk
      simp only [alistPut, if_pos rfl] at h
      rcases List.mem_cons.mp h with hh | hh
      · exact Or.inr hh
      · exact Or.inl (List.mem_cons_of_mem _ hh)
    · simp only [alistPut, if_neg hk] at h
      rcases List.mem_cons.mp h with hh | hh
      · exact Or.inl (hh ▸ List.mem_cons_self _ _)
      · rcases ih hh with hh2 | hh2
        · exact Or.inl (List.mem_cons_of_mem _ hh2)
        · exact Or.inr hh2

/-- A key present in `l` is still present after any write. -/
theorem alistPut_key_mono {κ α : Type} [DecidableEq κ]
    (l : List (κ × α)) (k k' : κ) (v : α)
    (h : k' ∈ l.map (·.1)) : k' ∈ (alistPut l k v).map (·.1) := by
  induction l with
  | nil => simp at h
  | cons q rest ih =>
    obtain ⟨qk, qv⟩ := q
    by_cases hk : qk = k
    · subst hk
      simp only [alistPut, if_pos rfl]
      simpa using h
    · simp only [alistPut, if_neg hk, List.map_cons]
      simp only [List.map_cons] at h
      rcases List.mem_cons.mp h with hh | hh
      · exact hh ▸ List.mem_cons_self _ _
      · exact List.mem_cons_of_mem _ (ih hh)

/-- The written key is present after the write. -/
theorem alistPut_key_self {κ α : Type} [DecidableEq κ]
    (l : List (κ × α)) (k : κ) (v : α) : k ∈ (alistPut l k v).map (·.1) := by
  induction l with
  | nil => simp [alistPut]
  | cons q rest ih =>
    obtain ⟨qk, qv⟩ := q
    by_cases hk : qk = k
    · subst hk
      simp [alistPut]
    · simp only [alistPut, if_neg hk, List.map_cons]
      exact List.mem_cons_of_mem _ ih

/-- Every key present after a write was present before or is the written
key. -/
theorem alistPut_keys_subset {κ α : Type} [DecidableEq κ]
    (l : List (κ × α)) (k k' : κ) (v : α)
    (h : k' ∈ (alistPut l k v).map (·.1)) : k' ∈ l.map (·.1) ∨ k' = k := by
  induction l with
  | nil => simp [alistPut] at h; exact Or.inr h
  | cons q rest ih =>
    obtain ⟨qk, qv⟩ := q
    by_cases hk : qk = k
    · subst hk
      simp only [alistPut, if_pos rfl, List.map_cons] at h
      rcases List.mem_cons.mp h with hh | hh
      · exact Or.inr hh
      · exact Or.inl (by simpa using Or.inr hh)
    · simp only [alistPut, if_neg hk, List.map_cons] at h
      rcases List.mem_cons.mp h with hh | hh
      · exact Or.inl (by simpa using Or.inl hh)
      · rcases ih hh with hh2 | hh2
        · exact Or.inl (by simpa using Or.inr (by simpa using hh2))
        · exact Or.inr hh2

/-- A write with Python dict semantics keeps the keys duplicate-free. -/
theorem alistPut_keys_nodup {κ α : Type} [DecidableEq κ]
    (l : List (κ × α)) (k : κ) (v : α)
    (h : (l.map (·.1)).Nodup) : ((alistPut l k v).map (·.1)).Nodup := by
  induction l with
  | nil => simp [alistPut]
  | cons q rest ih =>
    obtain ⟨qk, qv⟩ := q
    simp only [List.map_cons, List.nodup_cons] at h
    obtain ⟨hq, hrest⟩ := h
    by_cases hk : qk = k
    · subst hk
      have hput : alistPut ((qk, qv) :: rest) qk v = (qk, v) :: rest := by
        simp [alistPut]
      rw [hput]
      simp only [List.map_cons, List.nodup_cons]
      exact ⟨hq, hrest⟩
    · simp only [alistPut, if_neg hk, List.map_cons, List.nodup_cons]
      refine ⟨?_, ih hrest⟩
      intro hc
      rcases alistPut_keys_subset rest k qk v hc with hh | hh
      · exact hq hh
      · exact hk hh

/-- The file-dispatch stage walk never changes the dispatch state: the only
write in it (the cached-schedule rewrite after a drop) is dead, because its
guard tests the remaining schedule right after it was cleared. -/
theorem fileStage_tbl (env : DispatchEnv) (sha : String) (ign : Bool)
    (started : List (List String)) :
    ∀ (ns : List String) (out : List (String × Option Service)) (score : Int)
      (errors : Nat) (rest : List (List String)) (tbl : DispatchHash),
      (fileStage env sha ign started ns out score errors rest tbl).2.2.2.2 = tbl
  | [], out, score, errors, rest, tbl => rfl
  | name :: ns, out, score, errors, rest, tbl => by
    simp only [fileStage]
    cases hfin : tbl.finished sha name with
    | none => exact fileStage_tbl env sha ign started ns _ _ _ _ _
    | some fin =>
      by_cases he : fin.is_error
      · simp only [he, if_true]
        exact fileStage_tbl env sha ign started ns _ _ _ _ _
      · simp only [he, if_false]
        by_cases hd : (!ign && fin.drop) = true
        · simp only [hd, if_true]
          exact fileStage_tbl env sha ign started ns _ _ _ _ _
        · simp only [hd, if_false]
          exact fileStage_tbl env sha ign started ns _ _ _ _ _

/-- Every outstanding entry produced by a stage was already outstanding or
is a service of this stage with no finish record, bound to its catalog
lookup. -/
theorem fileStage_out_mem (env : DispatchEnv) (sha : String) (ign : Bool)
    (started : List (List String)) :
    ∀ (ns : List String) (out : List (String × Option Service)) (score : Int)
      (errors : Nat) (rest : List (List String)) (tbl : DispatchHash)
      (n : String) (os : Option Service),
      (n, os) ∈ (fileStage env sha ign started ns out score errors rest tbl).1 →
      (n, os) ∈ out ∨
        (os = svcGet env.services n ∧ n ∈ ns ∧ tbl.finished sha n = none)
  | [], out, score, errors, rest, tbl, n, os => fun h => Or.inl h
  | name :: ns, out, score, errors, rest, tbl, n, os => by
    simp only [fileStage]
    cases hfin : tbl.finished sha name with
    | none =>
      intro h
      rcases fileStage_out_mem env sha ign started ns _ _ _ _ _ n os h with hh | hh
      · rcases alistPut_mem out name (svcGet env.services name) (n, os) hh with h2 | h2
        · exact Or.inl h2
        · have hn : n = name := congrArg Prod.fst h2
          have ho : os = svcGet env.services name := congrArg Prod.snd h2
          subst hn
          exact Or.inr ⟨ho, List.mem_cons_self _ _, hfin⟩
      · exact Or.inr ⟨hh.1, List.mem_cons_of_mem _ hh.2.1, hh.2.2⟩
    | some fin =>
      by_cases he : fin.is_error
      · simp only [he, if_true]
        intro h
        rcases fileStage_out_mem env sha ign started ns _ _ _ _ _ n os h with hh | hh
        · exact Or.inl hh
        · exact Or.inr ⟨hh.1, List.mem_cons_of_mem _ hh.2.1, hh.2.2⟩
      · simp only [he, if_false]
        by_cases hd : (!ign && fin.drop) = true
        · simp only [hd, if_true]
          intro h
          rcases fileStage_out_mem env sha ign started ns _ _ _ _ _ n os h with hh | hh
          · exact Or.inl hh
          · exact Or.inr ⟨hh.1, List.mem_cons_of_mem _ hh.2.1, hh.2.2⟩
        · simp only [hd, if_false]
          intro h
          rcases fileStage_out_mem env sha ign started ns _ _ _ _ _ n os h with hh | hh
          · exact Or.inl hh
          · exact Or.inr ⟨hh.1, List.mem_cons_of_mem _ hh.2.1, hh.2.2⟩

/-- A key already outstanding stays outstanding through a stage. -/
theorem fileStage_keys_mono (env : DispatchEnv) (sha : String) (ign : Bool)
    (started : List (List String)) :
    ∀ (ns : List String) (out : List (String × Option Service)) (score : Int)
      (errors : Nat) (rest : List (List String)) (tbl : DispatchHash)
      (n : String),
      n ∈ out.map (·.1) →
      n ∈ (fileStage env sha ign started ns out score errors rest tbl).1.map (·.1)
  | [], out, score, errors, rest, tbl, n => fun h => h
  | name :: ns, out, score, errors, rest, tbl, n => by
    simp only [fileStage]
    cases hfin : tbl.finished sha name with
    | none =>
      intro h
      exact fileStage_keys_mono env sha ign started ns _ _ _ _ _ n
        (alistPut_key_mono out name _ _ h)
    | some fin =>
      by_cases he : fin.is_error
      · simp only [he, if_true]
        exact fileStage_keys_mono env sha ign started ns _ _ _ _ _ n
      · simp only [he, if_false]
        by_cases hd : (!ign && fin.drop) = true
        · simp only [hd, if_true]
          exact fileStage_keys_mono env sha ign started ns _ _ _ _ _ n
        · simp only [hd, if_false]
          exact fileStage_keys_mono env sha ign started ns _ _ _ _ _ n

/-- A service of the stage with no finish record ends up outstanding. -/
theorem fileStage_unfinished_key (env : DispatchEnv) (sha : String) (ign : Bool)
    (started : List (List String)) :
    ∀ (ns : List String) (out : List (String × Option Service)) (score : Int)
      (errors : Nat) (rest : List (List String)) (tbl : DispatchHash)
      (n : String),
      n ∈ ns → tbl.finished sha n = none →
      n ∈ (fileStage env sha ign started ns out score errors rest tbl).1.map (·.1)
  | [], out, score, errors, rest, tbl, n => by
    intro h
    simp at h
  | name :: ns, out, score, errors, rest, tbl, n => by
    intro hmem hnone
    rcases List.mem_cons.mp hmem with hn | hn
    · subst hn
      simp only [fileStage, hnone]
      exact fileStage_keys_mono env sha ign started ns _ _ _ _ _ n
        (alistPut_key_self out n _)
    · simp only [fileStage]
      cases hfin : tbl.finished sha name with
      | none =>
        exact fileStage_unfinished_key env sha ign started ns _ _ _ _ _ n hn hnone
      | some fin =>
        by_cases he : fin.is_error
        · simp only [he, if_true]
          exact fileStage_unfinished_key env sha ign started ns _ _ _ _ _ n hn hnone
        · simp only [he, if_false]
          by_cases hd : (!ign && fin.drop) = true
          · simp only [hd, if_true]
            exact fileStage_unfinished_key env sha ign started ns _ _ _ _ _ n hn hnone
          · simp only [hd, if_false]
            exact fileStage_unfinished_key env sha ign started ns _ _ _ _ _ n hn hnone

/-- A stage keeps the outstanding dict's keys duplicate-free. -/
theorem fileStage_keys_nodup (env : DispatchEnv) (sha : String) (ign : Bool)
    (started : List (List String)) :
    ∀ (ns : List String) (out : List (String × Option Service)) (score : Int)
      (errors : Nat) (rest : List (List String)) (tbl : DispatchHash),
      (out.map (·.1)).Nodup →
      ((fileStage env sha ign started ns out score errors rest tbl).1.map (·.1)).Nodup
  | [], out, score, errors, rest, tbl => fun h => h
  | name :: ns, out, score, errors, rest, tbl => by
    intro h
    simp only [fileStage]
    cases hfin : tbl.finished sha name with
    | none =>
      exact fileStage_keys_nodup env sha ign started ns _ _ _ _ _
        (alistPut_keys_nodup out name _ h)
    | some fin =>
      by_cases he : fin.is_error
      · simp only [he, if_true]
        exact fileStage_keys_nodup env sha ign started ns _ _ _ _ _ h
      · simp only [he, if_false]
        by_cases hd : (!ign && fin.drop) = true
        · simp only [hd, if_true]
          exact fileStage_keys_nodup env sha ign started ns _ _ _ _ _ h
        · simp only [hd, if_false]
          exact fileStage_keys_nodup env sha ign started ns _ _ _ _ _ h

/-- A stage either keeps the remaining schedule or clears it. -/
theorem fileStage_rest_eq (env : DispatchEnv) (sha : String) (ign : Bool)
    (started : List (List String)) :
    ∀ (ns : List String) (out : List (String × Option Service)) (score : Int)
      (errors : Nat) (rest : List (List String)) (tbl : DispatchHash),
      (fileStage env sha ign started ns out score errors rest tbl).2.2.2.1 = rest ∨
      (fileStage env sha ign started ns out score errors rest tbl).2.2.2.1 = []
  | [], out, score, errors, rest, tbl => Or.inl rfl
  | name :: ns, out, score, errors, rest, tbl => by
    simp only [fileStage]
    cases hfin : tbl.finished sha name with
    | none => exact fileStage_rest_eq env sha ign started ns _ _ _ _ _
    | some fin =>
      by_cases he : fin.is_error
      · simp only [he, if_true]
        exact fileStage_rest_eq env sha ign started ns _ _ _ _ _
      · simp only [he, if_false]
        by_cases hd : (!ign && fin.drop) = true
        · simp only [hd, if_true]
          rcases fileStage_rest_eq env sha ign started ns out
            (score + fin.score) errors
            ([] : List (List String))
            (if (List.isEmpty ([] : List (List String))) = true then tbl
             else tbl.schedulesSet sha started) with hh | hh
          · exact Or.inr hh
          · exact Or.inr hh
        · simp only [hd, if_false]
          exact fileStage_rest_eq env sha ign started ns _ _ _ _ _

/-- The stage loop is the identity once outstanding services exist. -/
theorem dispatchLoop_stuck (env : DispatchEnv) (sha : String) (ign : Bool)
    (fuel : Nat) (sched started : List (List String))
    (out : List (String × Option Service)) (score : Int) (errors : Nat)
    (tbl : DispatchHash)
    (res : List (String × Option Service) × Int × Nat ×
           List (List String) × DispatchHash)
    (h : dispatchLoop env sha ign fuel sched started out score errors tbl = some res)
    (hout : out ≠ []) : res = (out, score, errors, started, tbl) := by
  cases sched with
  | nil =>
    simp only [dispatchLoop] at h
    exact (Option.some.inj h).symm
  | cons stage rest =>
    cases fuel with
    | zero => exact absurd h (by simp [dispatchLoop])
    | succ fuel =>
      simp only [dispatchLoop] at h
      rw [if_neg (by simpa [List.isEmpty_iff] using hout)] at h
      exact (Option.some.inj h).symm

/-- Characterization of the `dispatch_file` stage loop started with no
outstanding services: the dispatch state is returned unchanged, the
outstanding dict has duplicate-free keys, and every outstanding entry is
a catalog lookup of a service with no finish record that sits in some
stage k of the schedule such that every service of every earlier stage has
a finish record. -/
theorem dispatchLoop_char (env : DispatchEnv) (sha : String) (ign : Bool) :
    ∀ (fuel : Nat) (sched started : List (List String))
      (score : Int) (errors : Nat) (tbl : DispatchHash)
      (out' : List (String × Option Service)) (score' : Int) (errors' : Nat)
      (started' : List (List String)) (tbl' : DispatchHash),
      dispatchLoop env sha ign fuel sched started [] score errors tbl =
        some (out', score', errors', started', tbl') →
      tbl' = tbl ∧ (out'.map (·.1)).Nodup ∧
      (∀ n os, (n, os) ∈ out' →
        os = svcGet env.services n ∧ tbl.finished sha n = none ∧
        ∃ k stagek, sched.get? k = some stagek ∧ n ∈ stagek ∧
          ∀ j stagej, j < k → sched.get? j = some stagej →
            ∀ m ∈ stagej, (tbl.finished sha m).isSome)
  | fuel, [], started, score, errors, tbl, out', score', errors', started', tbl', h => by
    simp only [dispatchLoop] at h
    have hp := (Option.some.inj h).symm
    refine ⟨congrArg (fun x => x.2.2.2.2) hp, ?_, ?_⟩
    · rw [show out' = [] from congrArg (fun x => x.1) hp]
      simp
    · intro n os hmem
      rw [show out' = [] from congrArg (fun x => x.1) hp] at hmem
      simp at hmem
  | 0, stage :: rest, started, score, errors, tbl, out', score', errors', started', tbl', h => by
    exact absurd h (by simp [dispatchLoop])
  | fuel + 1, stage :: rest, started, score, errors, tbl, out', score', errors', started', tbl', h => by
    simp only [dispatchLoop, List.isEmpty_nil, if_true] at h
    rw [show (fileStage env sha ign (started ++ [stage]) stage [] score errors rest tbl).2.2.2.2 = tbl
        from fileStage_tbl env sha ign (started ++ [stage]) stage [] score errors rest tbl] at h
    by_cases hout1 : (fileStage env sha ign (started ++ [stage]) stage [] score errors rest tbl).1 = []
    · rw [hout1] at h
      have hstagefin : ∀ m ∈ stage, (tbl.finished sha m).isSome := by
        intro m hm
        cases hf : tbl.finished sha m with
        | none =>
          have := fileStage_unfinished_key env sha ign (started ++ [stage])
            stage [] score errors rest tbl m hm hf
          rw [hout1] at this
          simp at this
        | some _ => simp
      rcases fileStage_rest_eq env sha ign (started ++ [stage])
          stage [] score errors rest tbl with hr | hr
      · rw [hr] at h
        obtain ⟨htbl, hnodup, hmem⟩ := dispatchLoop_char env sha ign fuel rest
          (started ++ [stage]) _ _ tbl out' score' errors' started' tbl' h
        refine ⟨htbl, hnodup, ?_⟩
        intro n os hm
        obtain ⟨hos, hfin, k, stagek, hk, hnk, hprev⟩ := hmem n os hm
        refine ⟨hos, hfin, k + 1, stagek, by simpa using hk, hnk, ?_⟩
        intro j stagej hj hgetj m hmj
        cases j with
        | zero =>
          have : stagej = stage := by
            simpa using hgetj.symm
          subst this
          exact hstagefin m hmj
        | succ j =>
          exact hprev j stagej (by omega) (by simpa using hgetj) m hmj
      · rw [hr] at h
        simp only [dispatchLoop] at h
        have hp := (Option.some.inj h).symm
        refine ⟨congrArg (fun x => x.2.2.2.2) hp, ?_, ?_⟩
        · rw [show out' = [] from congrArg (fun x => x.1) hp]
          simp
        · intro n os hmem
          rw [show out' = [] from congrArg (fun x => x.1) hp] at hmem
          simp at hmem
    · have hres := dispatchLoop_stuck env sha ign fuel _ (started ++ [stage])
        _ _ _ tbl _ h hout1
      have hout : out' = (fileStage env sha ign (started ++ [stage]) stage [] score errors rest tbl).1 :=
        congrArg (fun x => x.1) hres
      have htbl : tbl' = tbl := congrArg (fun x => x.2.2.2.2) hres
      refine ⟨htbl, ?_, ?_⟩
      · rw [hout]
        exact fileStage_keys_nodup env sha ign (started ++ [stage])
          stage [] score errors rest tbl (by simp)
      · intro n os hm
        rw [hout] at hm
        rcases fileStage_out_mem env sha ign (started ++ [stage])
            stage [] score errors rest tbl n os hm with hh | hh
        · simp at hh
        · exact ⟨hh.1, hh.2.2, 0, stage, rfl, hh.2.1, by intro j stagej hj _ _ _; omega⟩

/-- The conditional schedule-cache add never touches the timestamps, finish
records or admitted files. -/
theorem schedulesAdd_fields (t : DispatchHash) (sha : String)
    (v : List (List String)) :
    (t.schedulesAdd sha v).rows = t.rows ∧
    (t.schedulesAdd sha v).dispatched = t.dispatched ∧
    (t.schedulesAdd sha v).files = t.files := by
  unfold DispatchHash.schedulesAdd
  cases alistGet t.schedules sha with
  | none => exact ⟨rfl, rfl, rfl⟩
  | some _ => exact ⟨rfl, rfl, rfl⟩

/-- `Dispatcher.build_schedule` only ever writes the schedule cache. -/
theorem build_schedule_preserves (env : DispatchEnv) (fuel : Nat)
    (tbl : DispatchHash) (submission : Submission) (sha ftype : String)
    (s : List (List String)) (tbl1 : DispatchHash)
    (h : Dispatcher.build_schedule env fuel tbl submission sha ftype =
      some (s, tbl1)) :
    tbl1.rows = tbl.rows ∧ tbl1.dispatched = tbl.dispatched ∧
    tbl1.files = tbl.files := by
  unfold Dispatcher.build_schedule at h
  have hcompute : ∀ (hc : Dispatcher.computeSchedule env fuel tbl submission sha ftype =
      some (s, tbl1)),
      tbl1.rows = tbl.rows ∧ tbl1.dispatched = tbl.dispatched ∧
      tbl1.files = tbl.files := by
    intro hc
    unfold Dispatcher.computeSchedule at hc
    cases hobj : Scheduler.build_schedule env fuel submission ftype with
    | none => rw [hobj] at hc; exact absurd hc (by simp)
    | some obj =>
      rw [hobj] at hc
      simp only [Option.some.injEq, Prod.mk.injEq] at hc
      rw [← hc.2]
      exact schedulesAdd_fields tbl sha _
  cases hcache : tbl.schedulesGet sha with
  | some c =>
    rw [hcache] at h
    simp only at h
    by_cases hne : c ≠ []
    · rw [if_pos hne] at h
      have hp := Option.some.inj h
      injection hp with h1 h2
      rw [← h2]
      exact ⟨rfl, rfl, rfl⟩
    · rw [if_neg hne] at h
      exact hcompute h
  | none =>
    rw [hcache] at h
    simp only at h
    exact hcompute h

/-- The outstanding-dispatch loop leaves every key it does not contain with
its old dispatch timestamp. -/
theorem pushOutstanding_dt_preserve (env : DispatchEnv)
    (submission : Submission) (task : FileTask) (sha : String) (now : Int) :
    ∀ (outl : List (String × Option Service)) (tbl : DispatchHash)
      (ps : List ServiceTask) (tbl' : DispatchHash),
      pushOutstanding env submission task sha now outl tbl = some (ps, tbl') →
      ∀ n, n ∉ outl.map (·.1) →
        tbl'.dispatch_time sha n = tbl.dispatch_time sha n
  | [], tbl, ps, tbl', h, n, hn => by
    simp only [pushOutstanding] at h
    injection Option.some.inj h with h1 h2
    rw [← h2]
  | (name, oservice) :: rest, tbl, ps, tbl', h, n, hn => by
    simp only [pushOutstanding] at h
    cases oservice with
    | none => exact absurd h (by simp)
    | some service =>
      simp only at h
      simp only [List.map_cons, List.mem_cons, not_or] at hn
      obtain ⟨hn1, hn2⟩ := hn
      by_cases hq : now - tbl.dispatch_time sha name < service.timeout
      · rw [if_pos hq] at h
        exact pushOutstanding_dt_preserve env submission task sha now rest tbl ps tbl' h n hn2
      · rw [if_neg hq] at h
        cases hrec : pushOutstanding env submission task sha now rest
            (tbl.dispatch sha name now) with
        | none => rw [hrec] at h; exact absurd h (by simp)
        | some p =>
          rw [hrec] at h
          have htbl' : tbl' = p.2 := by
            have := Option.some.inj h
            exact (congrArg Prod.snd this).symm
          subst htbl'
          rw [pushOutstanding_dt_preserve env submission task sha now rest
            (tbl.dispatch sha name now) p.1 p.2 (by rw [hrec]) n hn2]
          unfold DispatchHash.dispatch_time DispatchHash.dispatch
          rw [alistGet_put_ne]
          intro hc
          exact hn1 (congrArg Prod.snd hc)

/-- The outstanding-dispatch loop only writes timestamps (finish records,
admitted files and cached schedules are untouched). -/
theorem pushOutstanding_fields (env : DispatchEnv)
    (submission : Submission) (task : FileTask) (sha : String) (now : Int) :
    ∀ (outl : List (String × Option Service)) (tbl : DispatchHash)
      (ps : List ServiceTask) (tbl' : DispatchHash),
      pushOutstanding env submission task sha now outl tbl = some (ps, tbl') →
      tbl'.rows = tbl.rows ∧ tbl'.files = tbl.files ∧
      tbl'.schedules = tbl.schedules
  | [], tbl, ps, tbl', h => by
    simp only [pushOutstanding] at h
    injection Option.some.inj h with h1 h2
    rw [← h2]
    exact ⟨rfl, rfl, rfl⟩
  | (name, oservice) :: rest, tbl, ps, tbl', h => by
    simp only [pushOutstanding] at h
    cases oservice with
    | none => exact absurd h (by simp)
    | some service =>
      simp only at h
      by_cases hq : now - tbl.dispatch_time sha name < service.timeout
      · rw [if_pos hq] at h
        exact pushOutstanding_fields env submission task sha now rest tbl ps tbl' h
      · rw [if_neg hq] at h
        cases hrec : pushOutstanding env submission task sha now rest
            (tbl.dispatch sha name now) with
        | none => rw [hrec] at h; exact absurd h (by simp)
        | some p =>
          rw [hrec] at h
          have htbl' : tbl' = p.2 := by
            have := Option.some.inj h
            exact (congrArg Prod.snd this).symm
          subst htbl'
          exact pushOutstanding_fields env submission task sha now rest
            (tbl.dispatch sha name now) p.1 p.2 (by rw [hrec])

/-- Every ServiceTask pushed by the outstanding loop names an outstanding
service whose dispatch window (measured against the table the loop started
from) had elapsed, and leaves that service's dispatch timestamp at `now`. -/
theorem pushOutstanding_mem (env : DispatchEnv)
    (submission : Submission) (task : FileTask) (sha : String) (now : Int) :
    ∀ (outl : List (String × Option Service)) (tbl : DispatchHash)
      (ps : List ServiceTask) (tbl' : DispatchHash),
      pushOutstanding env submission task sha now outl tbl = some (ps, tbl') →
      (outl.map (·.1)).Nodup →
      ∀ stask ∈ ps, ∃ s, (stask.service_name, some s) ∈ outl ∧
        ¬(now - tbl.dispatch_time sha stask.service_name < s.timeout) ∧
        tbl'.dispatch_time sha stask.service_name = now
  | [], tbl, ps, tbl', h, _, stask, hmem => by
    simp only [pushOutstanding] at h
    injection Option.some.inj h with h1 h2
    rw [← h1] at hmem
    simp at hmem
  | (name, oservice) :: rest, tbl, ps, tbl', h, hnodup, stask, hmem => by
    simp only [pushOutstanding] at h
    cases oservice with
    | none => exact absurd h (by simp)
    | some service =>
      simp only at h
      simp only [List.map_cons, List.nodup_cons] at hnodup
      obtain ⟨hname, hnodup2⟩ := hnodup
      by_cases hq : now - tbl.dispatch_time sha name < service.timeout
      · rw [if_pos hq] at h
        obtain ⟨s, hsm, hsw, hsd⟩ := pushOutstanding_mem env submission task sha
          now rest tbl ps tbl' h hnodup2 stask hmem
        exact ⟨s, List.mem_cons_of_mem _ hsm, hsw, hsd⟩
      · rw [if_neg hq] at h
        cases hrec : pushOutstanding env submission task sha now rest
            (tbl.dispatch sha name now) with
        | none => rw [hrec] at h; exact absurd h (by simp)
        | some p =>
          rw [hrec] at h
          have hp := Option.some.inj h
          have hps : ps = _ :: p.1 := (congrArg Prod.fst hp).symm
          have htbl' : tbl' = p.2 := (congrArg Prod.snd hp).symm
          subst htbl'
          rw [hps] at hmem
          rcases List.mem_cons.mp hmem with hh | hh
          · subst hh
            refine ⟨service, List.mem_cons_self _ _, hq, ?_⟩
            rw [pushOutstanding_dt_preserve env submission task sha now rest
              (tbl.dispatch sha name now) p.1 p.2 (by rw [hrec]) name hname]
            unfold DispatchHash.dispatch_time DispatchHash.dispatch
            rw [alistGet_put_self]
            rfl
          · obtain ⟨s, hsm, hsw, hsd⟩ := pushOutstanding_mem env submission task
              sha now rest (tbl.dispatch sha name now) p.1 p.2 (by rw [hrec])
              hnodup2 stask hh
            have hne : stask.service_name ≠ name := by
              intro hc
              apply hname
              rw [← hc]
              exact List.mem_map.mpr ⟨(stask.service_name, some s), hsm, rfl⟩
            refine ⟨s, List.mem_cons_of_mem _ hsm, ?_, hsd⟩
            rw [show (tbl.dispatch sha name now).dispatch_time sha stask.service_name =
                tbl.dispatch_time sha stask.service_name from ?_] at hsw
            · exact hsw
            · unfold DispatchHash.dispatch_time DispatchHash.dispatch
              rw [alistGet_put_ne]
              intro hc
              exact hne (congrArg Prod.snd hc)

/-- Any ServiceTask pushed by a `dispatch_file` call names a service with no
finish record whose dispatch window had elapsed at call time, and the call
leaves that service's dispatch timestamp at the call time. -/
theorem dispatch_file_pushed_window (env : DispatchEnv) (fuel : Nat)
    (subTask : SubmissionTask) (task : FileTask) (tbl : DispatchHash)
    (now : Int) (res : FileDispatchResult)
    (h : Dispatcher.dispatch_file env fuel (some subTask) task tbl now = some res) :
    ∀ stask ∈ res.pushedTasks, ∃ s,
      svcGet env.services stask.service_name = some s ∧
      tbl.finished task.file_info.sha256 stask.service_name = none ∧
      ¬(now - tbl.dispatch_time task.file_info.sha256 stask.service_name < s.timeout) ∧
      res.tbl.dispatch_time task.file_info.sha256 stask.service_name = now := by
  intro stask hmem
  unfold Dispatcher.dispatch_file at h
  simp only at h
  cases hb : Dispatcher.build_schedule env fuel tbl subTask.submission
      task.file_info.sha256 task.file_info.ftype with
  | none => rw [hb] at h; exact absurd h (by simp)
  | some p =>
    rw [hb] at h
    simp only at h
    obtain ⟨hrows1, hdisp1, hfiles1⟩ := build_schedule_preserves env fuel tbl
      subTask.submission task.file_info.sha256 task.file_info.ftype p.1 p.2
      (by rw [hb])
    cases hloop : dispatchLoop env task.file_info.sha256
        subTask.submission.params.ignore_filtering p.1.length p.1 [] [] 0 0 p.2 with
    | none => rw [hloop] at h; exact absurd h (by simp)
    | some q =>
      rw [hloop] at h
      simp only at h
      obtain ⟨htbl2, hnodup, hchar⟩ := dispatchLoop_char env
        task.file_info.sha256 subTask.submission.params.ignore_filtering
        p.1.length p.1 [] 0 0 p.2 q.1 q.2.1 q.2.2.1 q.2.2.2.1 q.2.2.2.2
        (by rw [hloop])
      by_cases hempty : q.1.isEmpty = true
      · rw [if_pos hempty] at h
        have hres := (Option.some.inj h).symm
        subst hres
        simp at hmem
      · rw [if_neg hempty] at h
        cases hpush : pushOutstanding env subTask.submission task
            task.file_info.sha256 now q.1 q.2.2.2.2 with
        | none => rw [hpush] at h; exact absurd h (by simp)
        | some r =>
          rw [hpush] at h
          simp only at h
          have hres := (Option.some.inj h).symm
          subst hres
          obtain ⟨s0, hin, hw, hd⟩ := pushOutstanding_mem env subTask.submission
            task task.file_info.sha256 now q.1 q.2.2.2.2 r.1 r.2
            (by rw [hpush]) hnodup stask hmem
          obtain ⟨hos, hfinNone, -⟩ := hchar stask.service_name (some s0) hin
          refine ⟨s0, hos.symm, ?_, ?_, hd⟩
          · unfold DispatchHash.finished at hfinNone ⊢
            rw [← hrows1]
            exact hfinNone
          · rw [htbl2] at hw
            unfold DispatchHash.dispatch_time at hw ⊢
            rw [← hdisp1]
            exact hw

/-- C5: re-dispatch idempotence window.  (i) A ServiceTask is pushed for a
service only when its dispatch window (now - dispatch_time < timeout) has
elapsed, and the push stamps the dispatch timestamp to now.  (ii) If a
second `dispatch_file` runs on the resulting state within the window of a
service pushed by the first call, the second call pushes no message for
that service, so two calls within the window emit at most one new
per-service message per still-outstanding service. -/
theorem c5_redispatch_window (env : DispatchEnv) (fuel : Nat)
    (subTask : SubmissionTask) (task : FileTask) (tbl : DispatchHash)
    (now : Int) (res : FileDispatchResult)
    (h : Dispatcher.dispatch_file env fuel (some subTask) task tbl now = some res) :
    (∀ stask ∈ res.pushedTasks, ∃ s,
      svcGet env.services stask.service_name = some s ∧
      tbl.finished task.file_info.sha256 stask.service_name = none ∧
      ¬(now - tbl.dispatch_time task.file_info.sha256 stask.service_name < s.timeout) ∧
      res.tbl.dispatch_time task.file_info.sha256 stask.service_name = now) ∧
    (∀ (t2 : Int) (res2 : FileDispatchResult) (stask : ServiceTask) (s : Service),
      stask ∈ res.pushedTasks →
      svcGet env.services stask.service_name = some s →
      Dispatcher.dispatch_file env fuel (some subTask) task res.tbl t2 = some res2 →
      t2 - now < s.timeout →
      ∀ stask2 ∈ res2.pushedTasks, stask2.service_name ≠ stask.service_name) := by
  refine ⟨dispatch_file_pushed_window env fuel subTask task tbl now res h, ?_⟩
  intro t2 res2 stask s hmem hsvc h2 hwin stask2 hmem2 hname
  obtain ⟨s1, hsvc1, hfin1, hw1, hd1⟩ :=
    dispatch_file_pushed_window env fuel subTask task tbl now res h stask hmem
  obtain ⟨s2, hsvc2, hfin2, hw2, hd2⟩ :=
    dispatch_file_pushed_window env fuel subTask task res.tbl t2 res2 h2 stask2 hmem2
  rw [hname] at hsvc2 hw2
  rw [hsvc] at hsvc2
  have hs2 : s2 = s := (Option.some.inj hsvc2).symm
  subst hs2
  rw [hd1] at hw2
  exact hw2 hwin

/-- C4 fixture: `sv1` (stage `core`) finished without drop, `sv2` (stage
`post`) not yet started. -/
def c4Tbl : DispatchHash :=
  ⟨[], [], [(("F", "sv1"), ⟨"result", "k1", 5, false⟩)], ["F"]⟩

/-- The schedule cache written by the C4 fixture's `build_schedule`. -/
def c4Tbl1 : DispatchHash :=
  ⟨[("F", [["sv1"], ["sv2"]])], [],
   [(("F", "sv1"), ⟨"result", "k1", 5, false⟩)], ["F"]⟩

/-- The result of the C4 fixture call: `sv2` is dispatched. -/
def c4Res : FileDispatchResult :=
  match Dispatcher.dispatch_file envB 10 (some ⟨subF, none⟩) ftF c4Tbl 1000 with
  | some r => r
  | none => ⟨DispatchHash.empty, [], none, false⟩

/-- The result of the C5 fixture call on a clean table: `sv1` (stage
`core`) is dispatched, `sv2` is not reached. -/
def c5Res1 : FileDispatchResult :=
  match Dispatcher.dispatch_file envB 10 (some ⟨subF, none⟩) ftF
      DispatchHash.empty 1000 with
  | some r => r
  | none => ⟨DispatchHash.empty, [], none, false⟩

/-- Witness for C5 at a concrete input: the call at time 1000 on a clean
table pushes `sv1` and stamps its dispatch time. -/
theorem c5_redispatch_window_witness :
    Dispatcher.dispatch_file envB 10 (some ⟨subF, none⟩) ftF
        DispatchHash.empty 1000 = some c5Res1 ∧
    ((∀ stask ∈ c5Res1.pushedTasks, ∃ s,
      svcGet envB.services stask.service_name = some s ∧
      DispatchHash.empty.finished ftF.file_info.sha256 stask.service_name = none ∧
      ¬((1000 : Int) - DispatchHash.empty.dispatch_time ftF.file_info.sha256 stask.service_name < s.timeout) ∧
      c5Res1.tbl.dispatch_time ftF.file_info.sha256 stask.service_name = 1000) ∧
    (∀ (t2 : Int) (res2 : FileDispatchResult) (stask : ServiceTask) (s : Service),
      stask ∈ c5Res1.pushedTasks →
      svcGet envB.services stask.service_name = some s →
      Dispatcher.dispatch_file envB 10 (some ⟨subF, none⟩) ftF c5Res1.tbl t2 = some res2 →
      t2 - 1000 < s.timeout →
      ∀ stask2 ∈ res2.pushedTasks, stask2.service_name ≠ stask.service_name)) :=
  ⟨by rfl,
   c5_redispatch_window envB 10 ⟨subF, none⟩ ftF DispatchHash.empty 1000 c5Res1
     (by rfl)⟩

/-- C4: stage ordering in `dispatch_file`.
(a) A ServiceTask for a service found in stage N of the file's schedule
(and in no earlier stage) is pushed only if every service of every stage
before N already has a finish record.
(b) If some stage M contains a service without a finish record, then no
service task is pushed for a service of any stage K > M (unless that
service also appears in a stage up to M). -/
theorem c4_stage_ordering (env : DispatchEnv) (fuel : Nat)
    (subTask : SubmissionTask) (task : FileTask) (tbl : DispatchHash)
    (now : Int) (res : FileDispatchResult) (sched : List (List String))
    (tbl1 : DispatchHash)
    (h : Dispatcher.dispatch_file env fuel (some subTask) task tbl now = some res)
    (hb : Dispatcher.build_schedule env fuel tbl subTask.submission
      task.file_info.sha256 task.file_info.ftype = some (sched, tbl1)) :
    (∀ stask ∈ res.pushedTasks, ∀ N stageN, sched.get? N = some stageN →
      stask.service_name ∈ stageN →
      (∀ M stageM, M < N → sched.get? M = some stageM →
        stask.service_name ∉ stageM) →
      ∀ M stageM, M < N → sched.get? M = some stageM →
        ∀ m ∈ stageM, (tbl.finished task.file_info.sha256 m).isSome) ∧
    (∀ M stageM, sched.get? M = some stageM →
      ∀ m ∈ stageM, tbl.finished task.file_info.sha256 m = none →
      ∀ stask ∈ res.pushedTasks, ∀ K stageK, M < K → sched.get? K = some stageK →
        stask.service_name ∈ stageK →
        (∀ J stageJ, J ≤ M → sched.get? J = some stageJ →
          stask.service_name ∉ stageJ) →
        False) := by
  unfold Dispatcher.dispatch_file at h
  simp only at h
  rw [hb] at h
  simp only at h
  obtain ⟨hrows1, hdisp1, hfiles1⟩ := build_schedule_preserves env fuel tbl
    subTask.submission task.file_info.sha256 task.file_info.ftype sched tbl1 hb
  have hfin_eq : ∀ n, tbl1.finished task.file_info.sha256 n =
      tbl.finished task.file_info.sha256 n := by
    intro n
    unfold DispatchHash.finished
    rw [hrows1]
  cases hloop : dispatchLoop env task.file_info.sha256
      subTask.submission.params.ignore_filtering sched.length sched [] [] 0 0 tbl1 with
  | none => rw [hloop] at h; exact absurd h (by simp)
  | some q =>
    rw [hloop] at h
    simp only at h
    obtain ⟨htbl2, hnodup, hchar⟩ := dispatchLoop_char env
      task.file_info.sha256 subTask.submission.params.ignore_filtering
      sched.length sched [] 0 0 tbl1 q.1 q.2.1 q.2.2.1 q.2.2.2.1 q.2.2.2.2
      (by rw [hloop])
    have hpushed : ∀ stask ∈ res.pushedTasks, ∃ s,
        (stask.service_name, some s) ∈ q.1 := by
      intro stask hmem
      by_cases hempty : q.1.isEmpty = true
      · rw [if_pos hempty] at h
        have hres := (Option.some.inj h).symm
        subst hres
        simp at hmem
      · rw [if_neg hempty] at h
        cases hpush : pushOutstanding env subTask.submission task
            task.file_info.sha256 now q.1 q.2.2.2.2 with
        | none => rw [hpush] at h; exact absurd h (by simp)
        | some r =>
          rw [hpush] at h
          simp only at h
          have hres := (Option.some.inj h).symm
          subst hres
          obtain ⟨s0, hin, -, -⟩ := pushOutstanding_mem env subTask.submission
            task task.file_info.sha256 now q.1 q.2.2.2.2 r.1 r.2
            (by rw [hpush]) hnodup stask hmem
          exact ⟨s0, hin⟩
    refine ⟨?_, ?_⟩
    · intro stask hmem N stageN hgetN hinN hnotbefore M stageM hMN hgetM m hm
      obtain ⟨s0, hin⟩ := hpushed stask hmem
      obtain ⟨-, -, k, stagek, hk, hnk, hprev⟩ := hchar stask.service_name (some s0) hin
      have hkN : N ≤ k := by
        by_contra hlt
        push_neg at hlt
        exact hnotbefore k stagek hlt hk hnk
      have := hprev M stageM (lt_of_lt_of_le hMN hkN) hgetM m hm
      rw [hfin_eq m] at this
      exact this
    · intro M stageM hgetM m hm hmfin stask hmem K stageK hMK hgetK hinK hnotuptoM
      obtain ⟨s0, hin⟩ := hpushed stask hmem
      obtain ⟨-, -, k, stagek, hk, hnk, hprev⟩ := hchar stask.service_name (some s0) hin
      have hMk : M < k := by
        by_contra hle
        push_neg at hle
        exact hnotuptoM k stagek hle hk hnk
      have := hprev M stageM hMk hgetM m hm
      rw [hfin_eq m, hmfin] at this
      simp at this

/-- Witness for C4 at a concrete input: with `sv1` (stage 0) finished, the
call pushes `sv2` from stage 1; stage 0 is indeed fully finished. -/
theorem c4_stage_ordering_witness :
    Dispatcher.dispatch_file envB 10 (some ⟨subF, none⟩) ftF c4Tbl 1000 =
      some c4Res ∧
    Dispatcher.build_schedule envB 10 c4Tbl subF "F" "text/plain" =
      some ([["sv1"], ["sv2"]], c4Tbl1) ∧
    ((∀ stask ∈ c4Res.pushedTasks, ∀ N stageN,
      [["sv1"], ["sv2"]].get? N = some stageN →
      stask.service_name ∈ stageN →
      (∀ M stageM, M < N → [["sv1"], ["sv2"]].get? M = some stageM →
        stask.service_name ∉ stageM) →
      ∀ M stageM, M < N → [["sv1"], ["sv2"]].get? M = some stageM →
        ∀ m ∈ stageM, (c4Tbl.finished ftF.file_info.sha256 m).isSome) ∧
    (∀ M stageM, [["sv1"], ["sv2"]].get? M = some stageM →
      ∀ m ∈ stageM, c4Tbl.finished ftF.file_info.sha256 m = none →
      ∀ stask ∈ c4Res.pushedTasks, ∀ K stageK, M < K →
        [["sv1"], ["sv2"]].get? K = some stageK →
        stask.service_name ∈ stageK →
        (∀ J stageJ, J ≤ M → [["sv1"], ["sv2"]].get? J = some stageJ →
          stask.service_name ∉ stageJ) →
        False)) :=
  ⟨by rfl, by decide,
   c4_stage_ordering envB 10 ⟨subF, none⟩ ftF c4Tbl 1000 c4Res
     [["sv1"], ["sv2"]] c4Tbl1 (by rfl) (by decide)⟩

/-- A found stage index is within the stage list. -/
theorem stageIndex_lt :
    ∀ (l : List String) (st : String) (i : Nat),
      stageIndex l st = some i → i < l.length
  | [], st, i, h => by simp [stageIndex] at h
  | st0 :: rest, st, i, h => by
    simp only [stageIndex] at h
    by_cases h0 : st0 = st
    · rw [if_pos h0] at h
      simp only [Option.some.injEq] at h
      subst h
      simp
    · rw [if_neg h0] at h
      cases hr : stageIndex rest st with
      | none => rw [hr] at h; exact absurd h (by simp)
      | some j =>
        rw [hr] at h
        simp at h
        subst h
        have := stageIndex_lt rest st j hr
        simp only [List.length_cons]
        omega

/-- Deduplication preserves membership. -/
theorem mem_dedupKeepFirst :
    ∀ (l : List String) (a : String), a ∈ dedupKeepFirst l ↔ a ∈ l
  | [], a => by simp [dedupKeepFirst]
  | b :: rest, a => by
    simp only [dedupKeepFirst, List.mem_cons, List.mem_filter]
    constructor
    · rintro (h | ⟨h, -⟩)
      · exact Or.inl h
      · exact Or.inr ((mem_dedupKeepFirst rest a).mp h)
    · rintro (h | h)
      · exact Or.inl h
      · by_cases hb : a = b
        · exact Or.inl hb
        · exact Or.inr ⟨(mem_dedupKeepFirst rest a).mpr h, by simpa using hb⟩

/-- Appending one element to the i-th row of a list of rows adds exactly
that element to the rows' union. -/
theorem exists_mem_set_append {α : Type} :
    ∀ (l : List (List α)) (i : Nat) (y p : α), i < l.length →
      ((∃ stage ∈ l.set i (l.getD i [] ++ [y]), p ∈ stage) ↔
        ((∃ stage ∈ l, p ∈ stage) ∨ p = y))
  | [], i, y, p, hi => by simp at hi
  | row :: rest, 0, y, p, hi => by
    simp only [List.set_cons_zero, List.getD_cons_zero]
    constructor
    · rintro ⟨stage, hst, hp⟩
      rcases List.mem_cons.mp hst with hh | hh
      · subst hh
        rcases List.mem_append.mp hp with hp2 | hp2
        · exact Or.inl ⟨row, List.mem_cons_self _ _, hp2⟩
        · exact Or.inr (by simpa using hp2)
      · exact Or.inl ⟨stage, List.mem_cons_of_mem _ hh, hp⟩
    · rintro (⟨stage, hst, hp⟩ | hp)
      · rcases List.mem_cons.mp hst with hh | hh
        · subst hh
          exact ⟨stage ++ [y], List.mem_cons_self _ _, List.mem_append.mpr (Or.inl hp)⟩
        · exact ⟨stage, List.mem_cons_of_mem _ hh, hp⟩
      · exact ⟨row ++ [y], List.mem_cons_self _ _, List.mem_append.mpr (Or.inr (by simpa using hp))⟩
  | row :: rest, i + 1, y, p, hi => by
    simp only [List.set_cons_succ, List.getD_cons_succ]
    have ih := exists_mem_set_append rest i y p (by simpa using Nat.lt_of_succ_lt_succ hi)
    constructor
    · rintro ⟨stage, hst, hp⟩
      rcases List.mem_cons.mp hst with hh | hh
      · exact Or.inl ⟨row, List.mem_cons_self _ _, hh ▸ hp⟩
      · rcases ih.mp ⟨stage, hh, hp⟩ with hh2 | hh2
        · obtain ⟨st2, h1, h2⟩ := hh2
          exact Or.inl ⟨st2, List.mem_cons_of_mem _ h1, h2⟩
        · exact Or.inr hh2
    · rintro (⟨stage, hst, hp⟩ | hp)
      · rcases List.mem_cons.mp hst with hh | hh
        · subst hh
          exact ⟨stage, List.mem_cons_self _ _, hp⟩
        · obtain ⟨st2, h1, h2⟩ := ih.mpr (Or.inl ⟨stage, hh, hp⟩)
          exact ⟨st2, List.mem_cons_of_mem _ h1, h2⟩
      · obtain ⟨st2, h1, h2⟩ := ih.mpr (Or.inr hp)
        exact ⟨st2, List.mem_cons_of_mem _ h1, h2⟩

/-- A successful catalog lookup returns a catalog entry with the looked-up
name. -/
theorem svcGet_some (catalog : List Service) (n : String) (s : Service)
    (h : svcGet catalog n = some s) : s ∈ catalog ∧ s.name = n := by
  unfold svcGet at h
  refine ⟨List.mem_of_find?_eq_some h, ?_⟩
  have := List.find?_some h
  simpa using this

/-- With duplicate-free names, each catalog entry is found under its own
name. -/
theorem svcGet_of_mem (catalog : List Service)
    (hnodup : (catalog.map (·.name)).Nodup) (s : Service) (hs : s ∈ catalog) :
    svcGet catalog s.name = some s := by
  induction catalog with
  | nil => simp at hs
  | cons c rest ih =>
    simp only [List.map_cons, List.nodup_cons] at hnodup
    obtain ⟨hc, hrest⟩ := hnodup
    rcases List.mem_cons.mp hs with hh | hh
    · subst hh
      unfold svcGet
      rw [List.find?_cons_of_pos]
      simp
    · have hne : c.name ≠ s.name := by
        intro hcc
        apply hc
        rw [hcc]
        exact List.mem_map.mpr ⟨s, hh, rfl⟩
      unfold svcGet
      rw [List.find?_cons_of_neg]
      · exact ih hrest hh
      · simpa using hne

/-- Placing one retained service adds exactly its binding to the union of
the stage rows and preserves the row count. -/
theorem placeService_mem (stages : List String)
    (acc acc' : List (List (String × Service))) (sv : Service)
    (h : placeService stages acc sv = some acc')
    (hlen : acc.length = stages.length) :
    (∀ p : String × Service,
      (∃ stage ∈ acc', p ∈ stage) ↔
        ((∃ stage ∈ acc, p ∈ stage) ∨ p = (sv.name, sv))) ∧
    acc'.length = acc.length := by
  unfold placeService at h
  cases hidx : stageIndex stages sv.stage with
  | none => rw [hidx] at h; exact absurd h (by simp)
  | some i =>
    rw [hidx] at h
    simp only [Option.some.injEq] at h
    subst h
    have hi : i < acc.length := by
      rw [hlen]
      exact stageIndex_lt stages sv.stage i hidx
    exact ⟨fun p => exists_mem_set_append acc i (sv.name, sv) p hi,
           List.length_set acc i _⟩

/-- Membership characterization of the scheduler's candidate loop: a pair
is in the union of the produced stage rows iff it was already there or its
name is a remaining candidate whose catalog entry it is, accepted by the
`accepts`/`rejects` tests. -/
theorem placeAll_mem (env : DispatchEnv) (ft : String) :
    ∀ (names : List String) (acc sched : List (List (String × Service))),
      Scheduler.placeAll env ft names acc = some sched →
      acc.length = env.stages.length →
      ∀ n s, (∃ stage ∈ sched, (n, s) ∈ stage) ↔
        ((∃ stage ∈ acc, (n, s) ∈ stage) ∨
         (n ∈ names ∧ svcGet env.services n = some s ∧
          (s.accepts = "" ∨ env.re_match s.accepts ft = true) ∧
          ¬(s.rejects ≠ "" ∧ env.re_match s.rejects ft = true)))
  | [], acc, sched, h, hlen, n, s => by
    simp only [Scheduler.placeAll, Option.some.injEq] at h
    subst h
    simp
  | name :: rest, acc, sched, h, hlen, n, s => by
    simp only [Scheduler.placeAll] at h
    cases hsv : svcGet env.services name with
    | none =>
      rw [hsv] at h
      rw [placeAll_mem env ft rest acc sched h hlen n s]
      constructor
      · rintro (hl | hr)
        · exact Or.inl hl
        · exact Or.inr ⟨List.mem_cons_of_mem _ hr.1, hr.2⟩
      · rintro (hl | ⟨hmem, hget, hconds⟩)
        · exact Or.inl hl
        · rcases List.mem_cons.mp hmem with hh | hh
          · subst hh
            rw [hsv] at hget
            exact absurd hget (by simp)
          · exact Or.inr ⟨hh, hget, hconds⟩
    | some service =>
      rw [hsv] at h
      simp only at h
      obtain ⟨hsmem, hsname⟩ := svcGet_some env.services name service hsv
      by_cases hkeep : (service.accepts = "" ∨ env.re_match service.accepts ft = true) ∧
          ¬(service.rejects ≠ "" ∧ env.re_match service.rejects ft = true)
      · rw [if_pos hkeep] at h
        cases hplace : placeService env.stages acc service with
        | none => rw [hplace] at h; exact absurd h (by simp)
        | some acc2 =>
          rw [hplace] at h
          obtain ⟨hpmem, hplen⟩ := placeService_mem env.stages acc acc2 service hplace hlen
          rw [placeAll_mem env ft rest acc2 sched h (by rw [hplen, hlen]) n s]
          rw [hpmem (n, s)]
          constructor
          · rintro ((hl | hpair) | hr)
            · exact Or.inl hl
            · have hn : n = service.name := congrArg Prod.fst hpair
              have hs : s = service := congrArg Prod.snd hpair
              subst hs
              refine Or.inr ⟨?_, ?_, hkeep.1, hkeep.2⟩
              · rw [hn, hsname]
                exact List.mem_cons_self _ _
              · rw [hn, hsname]
                exact hsv
            · exact Or.inr ⟨List.mem_cons_of_mem _ hr.1, hr.2⟩
          · rintro (hl | ⟨hmem, hget, hconds⟩)
            · exact Or.inl (Or.inl hl)
            · rcases List.mem_cons.mp hmem with hh | hh
              · subst hh
                rw [hsv] at hget
                have hss : s = service := (Option.some.inj hget).symm
                subst hss
                exact Or.inl (Or.inr (by rw [hsname]))
              · exact Or.inr ⟨hh, hget, hconds⟩
      · rw [if_neg hkeep] at h
        rw [placeAll_mem env ft rest acc sched h hlen n s]
        constructor
        · rintro (hl | hr)
          · exact Or.inl hl
          · exact Or.inr ⟨List.mem_cons_of_mem _ hr.1, hr.2⟩
        · rintro (hl | ⟨hmem, hget, hconds⟩)
          · exact Or.inl hl
          · rcases List.mem_cons.mp hmem with hh | hh
            · subst hh
              rw [hsv] at hget
              have hss : s = service := (Option.some.inj hget).symm
              subst hss
              exact absurd ⟨hconds.1, hconds.2⟩ hkeep
            · exact Or.inr ⟨hh, hget, hconds⟩

/-- C7: schedule membership in `Scheduler.build_schedule`.  A catalog
service ends up in the returned schedule iff it is a candidate (in the
expanded selected set minus the expanded excluded set, or of category
`system` — system services are candidates even when excluded), its
`accepts` pattern is empty or matches the file type, and its `rejects`
pattern is empty or does not match (`re.match` is anchored at the start of
the file type by definition of Python's `re.match`, modelled here by the
abstract predicate `re_match`).  Candidate names absent from the catalog
are dropped, which the existence of the catalog entry on the right-hand
side captures. -/
theorem c7_schedule_membership (env : DispatchEnv) (fuel : Nat)
    (submission : Submission) (file_type : String)
    (sched : List (List (String × Service))) (excluded selected : List String)
    (hnodup : (env.services.map (·.name)).Nodup)
    (hexc : Scheduler.expand_categories env.services fuel
      submission.params.services.excluded = some excluded)
    (hsel : (if submission.params.services.selected = [] then
        some (env.services.map (·.name))
      else
        Scheduler.expand_categories env.services fuel
          submission.params.services.selected) = some selected)
    (hbuild : Scheduler.build_schedule env fuel submission file_type = some sched)
    (name : String) :
    (∃ stage ∈ sched, ∃ s, (name, s) ∈ stage) ↔
    (∃ service, svcGet env.services name = some service ∧
      ((name ∈ selected ∧ name ∉ excluded) ∨ service.category = "system") ∧
      (service.accepts = "" ∨ env.re_match service.accepts file_type = true) ∧
      ¬(service.rejects ≠ "" ∧ env.re_match service.rejects file_type = true)) := by
  unfold Scheduler.build_schedule at hbuild
  rw [hexc] at hbuild
  simp only at hbuild
  rw [hsel] at hbuild
  simp only at hbuild
  have hmem := placeAll_mem env file_type _ _ sched hbuild (by simp)
  constructor
  · rintro ⟨stage, hst, s, hp⟩
    rcases (hmem name s).mp ⟨stage, hst, hp⟩ with hinit | ⟨hname, hget, hconds⟩
    · obtain ⟨st0, hst0, hp0⟩ := hinit
      obtain ⟨x, -, hx⟩ := List.mem_map.mp hst0
      rw [← hx] at hp0
      simp at hp0
    · rw [mem_dedupKeepFirst] at hname
      rcases List.mem_append.mp hname with hcand | hsys
      · have hfil := List.mem_filter.mp hcand
        exact ⟨s, hget, Or.inl ⟨hfil.1, of_decide_eq_true hfil.2⟩, hconds⟩
      · obtain ⟨svc, hsvcmem, hsvcname⟩ := List.mem_map.mp hsys
        have hsvcfil := List.mem_filter.mp hsvcmem
        have hgot : svcGet env.services svc.name = some svc :=
          svcGet_of_mem env.services hnodup svc hsvcfil.1
        rw [hsvcname, hget] at hgot
        have hse : svc = s := (Option.some.inj hgot).symm
        refine ⟨s, hget, Or.inr ?_, hconds⟩
        rw [← hse]
        exact of_decide_eq_true hsvcfil.2
  · rintro ⟨service, hget, hcand, hacc, hrej⟩
    have hpair : ∃ stage ∈ sched, (name, service) ∈ stage := by
      rw [hmem name service]
      refine Or.inr ⟨?_, hget, hacc, hrej⟩
      rw [mem_dedupKeepFirst]
      rcases hcand with ⟨hsel2, hexc2⟩ | hsys
      · exact List.mem_append.mpr (Or.inl (List.mem_filter.mpr
          ⟨hsel2, by simpa using hexc2⟩))
      · refine List.mem_append.mpr (Or.inr ?_)
        obtain ⟨hsmem, hsname⟩ := svcGet_some env.services name service hget
        exact List.mem_map.mpr
          ⟨service, List.mem_filter.mpr ⟨hsmem, by simpa using hsys⟩, hsname⟩
    obtain ⟨stage, h1, h2⟩ := hpair
    exact ⟨stage, h1, service, h2⟩

/-- Witness for C7 at a concrete input: with catalog `[sv1, sv2]`, empty
selection (meaning all), empty exclusion, `sv1` is in the built schedule
and the right-hand characterization holds for it. -/
theorem c7_schedule_membership_witness :
    (envB.services.map (·.name)).Nodup ∧
    Scheduler.expand_categories envB.services 10
      subF.params.services.excluded = some [] ∧
    (if subF.params.services.selected = [] then
        some (envB.services.map (·.name))
      else
        Scheduler.expand_categories envB.services 10
          subF.params.services.selected) = some ["sv1", "sv2"] ∧
    Scheduler.build_schedule envB 10 subF "text/plain" =
      some [[("sv1", svCore)], [("sv2", svPost)]] ∧
    ((∃ stage ∈ [[("sv1", svCore)], [("sv2", svPost)]], ∃ s, ("sv1", s) ∈ stage) ↔
    (∃ service, svcGet envB.services "sv1" = some service ∧
      (("sv1" ∈ ["sv1", "sv2"] ∧ "sv1" ∉ ([] : List String)) ∨
        service.category = "system") ∧
      (service.accepts = "" ∨ envB.re_match service.accepts "text/plain" = true) ∧
      ¬(service.rejects ≠ "" ∧ envB.re_match service.rejects "text/plain" = true))) :=
  ⟨by decide, by decide, by decide, by decide,
   c7_schedule_membership envB 10 subF "text/plain"
     [[("sv1", svCore)], [("sv2", svPost)]] [] ["sv1", "sv2"]
     (by decide) (by decide) (by decide) (by decide) "sv1"⟩
